import Mathlib

/-!
Verification of the crossword CSP engine (`CrosswordCreator`) found in
`Project-3a-Crossword/generate.py` and `Project-3a-Crossword/crossword.py`.

The engine is embedded shallowly:

* Python strings become `List Char`, Python sets and dicts become Lean lists
  (association lists); the fixed list order stands in for the (per-run
  deterministic) Python iteration order.
* Fallible operations (dict indexing, string indexing, `min`/`max` over an
  empty sequence) run in an `Except Err` monad whose errors mirror the Python
  exceptions (`KeyError`, `IndexError`, `ValueError`).
* The two unbounded recursions (`ac3`'s worklist loop and `backtrack`) take an
  explicit fuel argument; running out of fuel is the distinguished
  `Err.outOfFuel` value, which is an artifact of the embedding (the Python
  loops instead keep running).  Termination theorems show the fuel used by the
  top-level wrappers suffices.
* The puzzle-structure collaborator (`Crossword` / `Variable` classes, which
  only the engine's callers construct) is modelled from the spec.
-/

/-- A candidate word: a Python string as a list of characters. -/
abbrev Word := List Char

/-- Errors of the embedding.  `keyError`, `indexError` and `valueError` mirror
the Python exceptions of the same names; `outOfFuel` is an artifact of the
fuel-indexed embedding of the two source-level loops. -/
inductive Err where
  | keyError
  | indexError
  | valueError
  | outOfFuel
deriving DecidableEq, Repr

/-- Modelled from the spec: a slot (the external `Variable` class is absent
from the sources).  A slot is distinguishable by grid position plus direction
and carries a fixed length; the engine reads only the identity and `length`. -/
structure Var where
  row : Nat
  col : Nat
  down : Bool
  length : Nat
deriving DecidableEq, Repr

/-- Modelled from the spec: the external puzzle structure (the `Crossword`
class is absent from the sources).  It provides the set of slots, the word
list, and the overlap map: for an ordered pair of slots either no entry at
all, an explicit "no overlap" entry (`none`), or an index pair `(i, j)`. -/
structure Crossword where
  vars : List Var
  words : List Word
  overlaps : List ((Var × Var) × Option (Nat × Nat))
deriving DecidableEq, Repr

/-- `dict.get`-style lookup in the overlap map: `none` when the key is absent,
`some e` when the map binds `(x, y)` to `e`. -/
def overlapGet (c : Crossword) (x y : Var) : Option (Option (Nat × Nat)) :=
  (c.overlaps.find? (fun p => p.1.1 == x && p.1.2 == y)).map (fun p => p.2)

/-- `overlaps[x, y]` as written in `generate.py` (line 121): direct dict
indexing, raising `KeyError` when the key is absent. -/
def overlapIdx (c : Crossword) (x y : Var) : Except Err (Option (Nat × Nat)) :=
  match overlapGet c x y with
  | some e => .ok e
  | none => .error .keyError

/-- Modelled from the spec: `neighbors(slot)` of the absent `Crossword` class.
Two slots are neighbors iff they are distinct and the overlap map records a
non-`none` entry for them. -/
def Crossword.neighbors (c : Crossword) (x : Var) : List Var :=
  c.vars.filter (fun y =>
    !(y == x) &&
      (match overlapGet c x y with
       | some (some _) => true
       | _ => false))

/-- The per-slot domain map `self.domains`: an association list in slot order
(Python dict, insertion-ordered). -/
abbrev Domains := List (Var × List Word)

/-- A (partial) assignment `dict` from slots to words, insertion-ordered. -/
abbrev Assignment := List (Var × Word)

/-- `self.domains[x]`: dict indexing, `KeyError` when absent. -/
def domGet (d : Domains) (x : Var) : Except Err (List Word) :=
  match d.find? (fun p => p.1 == x) with
  | some p => .ok p.2
  | none => .error .keyError

/-- `self.domains[x] = ws`: dict assignment.  Replaces the first binding of
`x` (dict keys are unique), appending when absent. -/
def domSet : Domains → Var → List Word → Domains
  | [], x, ws => [(x, ws)]
  | p :: rest, x, ws => if p.1 == x then (x, ws) :: rest else p :: domSet rest x ws

/-- `v in dict` test on an association list. -/
def hasKey {α : Type} (l : List (Var × α)) (v : Var) : Bool :=
  l.any (fun p => p.1 == v)

/-- `assignment[v]`: dict indexing into the assignment. -/
def assignGet (a : Assignment) (v : Var) : Except Err Word :=
  match a.find? (fun p => p.1 == v) with
  | some p => .ok p.2
  | none => .error .keyError

/-- `word[i]`: Python string indexing, `IndexError` out of range. -/
def charAt (w : Word) (i : Nat) : Except Err Char :=
  match w[i]? with
  | some ch => .ok ch
  | none => .error .indexError

/-- `__init__` (both files, lines 13-16): every slot's domain starts as a copy
of the full word list. -/
def initDomains (c : Crossword) : Domains :=
  c.vars.map (fun v => (v, c.words))

/-- `enforce_node_consistency` (`generate.py` lines 100-111): for every slot,
drop each candidate word whose length differs from the slot's length.  The
source collects `to_remove` and subtracts it only when nonempty; on the
association-list model both phrasings are the pointwise filter below. -/
def enforce_node_consistency (d : Domains) : Domains :=
  d.map (fun p => (p.1, p.2.filter (fun w => w.length == p.1.length)))

/-- `enforce_node_consistency` of `crossword.py` (lines 100-108): same
filtering, phrased in the source with a set comprehension. -/
def enforceNodeConsistencyC (d : Domains) : Domains :=
  d.map (fun p => (p.1, p.2.filter (fun w => w.length == p.1.length)))

/-- `any(x_word[i] == y_word[j] for y_word in self.domains[y])` (`generate.py`
line 130): short-circuiting scan; the indexings are re-evaluated per element
and can raise `IndexError`.  On an empty domain nothing is evaluated. -/
def existsMatch (i j : Nat) (xw : Word) : List Word → Except Err Bool
  | [] => .ok false
  | yw :: rest =>
    match charAt xw i with
    | .error e => .error e
    | .ok a =>
      match charAt yw j with
      | .error e => .error e
      | .ok b => if a == b then .ok true else existsMatch i j xw rest

/-- The `for x_word in self.domains[x]` loop of `revise` (lines 128-131):
keep exactly the words having a matching partner; removal preserves the
residual order of `self.domains[x] -= to_remove`. -/
def reviseFilter (i j : Nat) (dy : List Word) : List Word → Except Err (List Word)
  | [] => .ok []
  | xw :: rest =>
    match existsMatch i j xw dy with
    | .error e => .error e
    | .ok keep =>
      match reviseFilter i j dy rest with
      | .error e => .error e
      | .ok tail => .ok (if keep then xw :: tail else tail)

/-- `revise` (`generate.py` lines 113-137).  Looks the overlap up by direct
dict indexing; on a `none` overlap it is a no-op returning `false`; otherwise
it drops the unsupported words of `x`'s domain and reports whether any word
was removed. -/
def reviseG (c : Crossword) (d : Domains) (x y : Var) : Except Err (Bool × Domains) :=
  match overlapIdx c x y with
  | .error e => .error e
  | .ok none => .ok (false, d)
  | .ok (some (i, j)) =>
    match domGet d x, domGet d y with
    | .error e, _ => .error e
    | .ok _, .error e => .error e
    | .ok dx, .ok dy =>
      match reviseFilter i j dy dx with
      | .error e => .error e
      | .ok dx2 =>
        if dx2.length == dx.length then .ok (false, d)
        else .ok (true, domSet d x dx2)

/-- `revise` of `crossword.py` (lines 110-133): identical except the overlap
is looked up with `overlaps.get((x, y))`, so a missing key acts as `None`. -/
def reviseC (c : Crossword) (d : Domains) (x y : Var) : Except Err (Bool × Domains) :=
  match (overlapGet c x y).getD none with
  | none => .ok (false, d)
  | some (i, j) =>
    match domGet d x, domGet d y with
    | .error e, _ => .error e
    | .ok _, .error e => .error e
    | .ok dx, .ok dy =>
      match reviseFilter i j dy dx with
      | .error e => .error e
      | .ok dx2 =>
        if dx2.length == dx.length then .ok (false, d)
        else .ok (true, domSet d x dx2)

/-- The default full arc queue of `ac3` (lines 144-146): every ordered pair
`(x, y)` with `y` a neighbor of `x`. -/
def fullArcs (c : Crossword) : List (Var × Var) :=
  (c.vars.map (fun x => (c.neighbors x).map (fun y => (x, y)))).flatten

/-- Queue initialization of `ac3` (lines 144-148). -/
def ac3Queue (c : Crossword) (arcs : Option (List (Var × Var))) : List (Var × Var) :=
  match arcs with
  | none => fullArcs c
  | some l => l

/-- The `while queue` loop of `ac3` (`generate.py` lines 150-157), indexed by
fuel.  Pops the front arc, revises it, fails when the revised domain emptied,
and otherwise re-enqueues `(z, x)` for every neighbor `z ≠ y` of `x`. -/
def ac3Go (c : Crossword) : Nat → Domains → List (Var × Var) → Except Err (Bool × Domains)
  | 0, _, _ => .error .outOfFuel
  | fuel + 1, d, queue =>
    match queue with
    | [] => .ok (true, d)
    | (x, y) :: rest =>
      match reviseG c d x y with
      | .error e => .error e
      | .ok (revised, d2) =>
        if revised then
          match domGet d2 x with
          | .error e => .error e
          | .ok dx =>
            if dx.length == 0 then .ok (false, d2)
            else ac3Go c fuel d2
              (rest ++ ((c.neighbors x).filter (fun z => !(z == y))).map (fun z => (z, x)))
        else ac3Go c fuel d2 rest

/-- The same loop built on `crossword.py`'s `revise`. -/
def ac3GoC (c : Crossword) : Nat → Domains → List (Var × Var) → Except Err (Bool × Domains)
  | 0, _, _ => .error .outOfFuel
  | fuel + 1, d, queue =>
    match queue with
    | [] => .ok (true, d)
    | (x, y) :: rest =>
      match reviseC c d x y with
      | .error e => .error e
      | .ok (revised, d2) =>
        if revised then
          match domGet d2 x with
          | .error e => .error e
          | .ok dx =>
            if dx.length == 0 then .ok (false, d2)
            else ac3GoC c fuel d2
              (rest ++ ((c.neighbors x).filter (fun z => !(z == y))).map (fun z => (z, x)))
        else ac3GoC c fuel d2 rest

/-- Total size of all domains; the termination measure of the AC-3 loop. -/
def totalSize (d : Domains) : Nat :=
  (d.map (fun p => p.2.length)).sum

/-- Fuel sufficient for the AC-3 loop (proved below): each iteration either
shortens the queue or strictly shrinks `totalSize` while enqueueing at most
`|variables|` arcs. -/
def ac3Bound (c : Crossword) (d : Domains) (q : List (Var × Var)) : Nat :=
  totalSize d * (c.vars.length + 1) + q.length + 1

/-- `ac3` (`generate.py` lines 139-157), run with sufficient fuel. -/
def ac3 (c : Crossword) (d : Domains) (arcs : Option (List (Var × Var))) :
    Except Err (Bool × Domains) :=
  ac3Go c (ac3Bound c d (ac3Queue c arcs)) d (ac3Queue c arcs)

/-- `ac3` of `crossword.py` (lines 135-154). -/
def ac3C (c : Crossword) (d : Domains) (arcs : Option (List (Var × Var))) :
    Except Err (Bool × Domains) :=
  ac3GoC c (ac3Bound c d (ac3Queue c arcs)) d (ac3Queue c arcs)

/-- `set(assignment.keys()) == self.crossword.variables`: set equality as
mutual containment. -/
def setEqVars (ks : List Var) (vs : List Var) : Bool :=
  ks.all (fun k => vs.contains k) && vs.all (fun v => ks.contains v)

/-- `assignment_complete` (lines 159-164, identical in both files).  The
second source conjunct, `all(assignment[v] is not None ...)`, is trivially
true here: the engine only ever stores words in the assignment, so the model
carries it as a vacuous `all`. -/
def assignment_complete (c : Crossword) (a : Assignment) : Bool :=
  setEqVars (a.map Prod.fst) c.vars && a.all (fun _ => true)

/-- `len(values) == len(set(values))` of `consistent` (lines 174-176):
the values are pairwise distinct. -/
def distinctValues (a : Assignment) : Bool :=
  (a.map Prod.snd).eraseDups.length == (a.map Prod.snd).length

/-- The `for neighbor in self.crossword.neighbors(var)` loop of `consistent`
(lines 182-189): each assigned neighbor must agree at the overlap. -/
def consistentNbrs (c : Crossword) (a : Assignment) (var : Var) (word : Word) :
    List Var → Except Err Bool
  | [] => .ok true
  | n :: rest =>
    if hasKey a n then
      match overlapIdx c var n with
      | .error e => .error e
      | .ok none => consistentNbrs c a var word rest
      | .ok (some (i, j)) =>
        match charAt word i with
        | .error e => .error e
        | .ok ch1 =>
          match assignGet a n with
          | .error e => .error e
          | .ok u =>
            match charAt u j with
            | .error e => .error e
            | .ok ch2 =>
              if ch1 == ch2 then consistentNbrs c a var word rest else .ok false
    else consistentNbrs c a var word rest

/-- The `for var, word in assignment.items()` loop of `consistent`
(lines 179-189): length check, then the neighbor loop. -/
def consistentItems (c : Crossword) (a : Assignment) :
    List (Var × Word) → Except Err Bool
  | [] => .ok true
  | (var, word) :: rest =>
    if word.length == var.length then
      match consistentNbrs c a var word (c.neighbors var) with
      | .error e => .error e
      | .ok true => consistentItems c a rest
      | .ok false => .ok false
    else .ok false

/-- `consistent` (lines 166-190, identical in both files). -/
def consistent (c : Crossword) (a : Assignment) : Except Err Bool :=
  if distinctValues a then consistentItems c a a else .ok false

/-- Inner count of `conflicts` in `order_domain_values` (lines 207-209):
how many words of the neighbor's domain disagree at the overlap. -/
def countConflicts (i j : Nat) (word : Word) : List Word → Except Err Nat
  | [] => .ok 0
  | nw :: rest =>
    match charAt word i with
    | .error e => .error e
    | .ok a =>
      match charAt nw j with
      | .error e => .error e
      | .ok b =>
        match countConflicts i j word rest with
        | .error e => .error e
        | .ok k => .ok ((if a == b then 0 else 1) + k)

/-- The neighbor loop of `conflicts` (lines 200-210): skip assigned neighbors
and `none` overlaps, otherwise add the conflict count. -/
def conflictsNbrs (c : Crossword) (d : Domains) (a : Assignment) (var : Var)
    (word : Word) : List Var → Except Err Nat
  | [] => .ok 0
  | n :: rest =>
    if hasKey a n then conflictsNbrs c d a var word rest
    else
      match overlapIdx c var n with
      | .error e => .error e
      | .ok none => conflictsNbrs c d a var word rest
      | .ok (some (i, j)) =>
        match domGet d n with
        | .error e => .error e
        | .ok dn =>
          match countConflicts i j word dn with
          | .error e => .error e
          | .ok k =>
            match conflictsNbrs c d a var word rest with
            | .error e => .error e
            | .ok krest => .ok (k + krest)

/-- `conflicts(word)`: the sort key of `order_domain_values`. -/
def conflictsKey (c : Crossword) (d : Domains) (a : Assignment) (var : Var)
    (word : Word) : Except Err Nat :=
  conflictsNbrs c d a var word (c.neighbors var)

/-- Decorate each word with its key (Python `sorted` computes the key once
per element before sorting). -/
def decorate (c : Crossword) (d : Domains) (a : Assignment) (var : Var) :
    List Word → Except Err (List (Word × Nat))
  | [] => .ok []
  | w :: rest =>
    match conflictsKey c d a var w with
    | .error e => .error e
    | .ok k =>
      match decorate c d a var rest with
      | .error e => .error e
      | .ok tail => .ok ((w, k) :: tail)

/-- Stable insertion: a later element lands after earlier elements with a key
less than or equal to its own, matching Python's stable `sorted`. -/
def insertSorted (p : Word × Nat) : List (Word × Nat) → List (Word × Nat)
  | [] => [p]
  | q :: qs => if q.2 ≤ p.2 then q :: insertSorted p qs else p :: q :: qs

/-- Stable sort of the decorated list (ascending keys). -/
def sortPairs (l : List (Word × Nat)) : List (Word × Nat) :=
  l.foldl (fun acc p => insertSorted p acc) []

/-- `order_domain_values` (`generate.py` lines 192-212; `crossword.py`
lines 189-206 counts identically with a `sum`): least-constraining-value
ordering of the slot's current domain. -/
def order_domain_values (c : Crossword) (d : Domains) (a : Assignment)
    (var : Var) : Except Err (List Word) :=
  match domGet d var with
  | .error e => .error e
  | .ok dvar =>
    match decorate c d a var dvar with
    | .error e => .error e
    | .ok pairs => .ok ((sortPairs pairs).map Prod.fst)

/-- `min` of a nonempty sequence of naturals (`none` for the empty sequence,
where Python raises `ValueError`). -/
def minNat : List Nat → Option Nat
  | [] => none
  | x :: xs => some (xs.foldl Nat.min x)

/-- `len(self.domains[v])` for each unassigned slot, in slot order. -/
def domSizes (d : Domains) : List Var → Except Err (List Nat)
  | [] => .ok []
  | v :: rest =>
    match domGet d v with
    | .error e => .error e
    | .ok ws =>
      match domSizes d rest with
      | .error e => .error e
      | .ok tail => .ok (ws.length :: tail)

/-- `[v for v in unassigned if len(self.domains[v]) == m]` (line 223). -/
def filterBySize (d : Domains) (m : Nat) : List Var → Except Err (List Var)
  | [] => .ok []
  | v :: rest =>
    match domGet d v with
    | .error e => .error e
    | .ok ws =>
      match filterBySize d m rest with
      | .error e => .error e
      | .ok tail => .ok (if ws.length == m then v :: tail else tail)

/-- Python `max(candidates, key=deg)`: the first element attaining the
maximal key (later elements replace the current best only when strictly
greater). -/
def maxByDegreeFirst (c : Crossword) (v : Var) (vs : List Var) : Var :=
  vs.foldl (fun best y =>
    if (c.neighbors best).length < (c.neighbors y).length then y else best) v

/-- `select_unassigned_variable` (lines 214-229, identical in both files):
minimum-remaining-values, ties broken by highest degree.  `min` over an empty
unassigned list raises `ValueError` (and so would the fallthrough `max`). -/
def select_unassigned_variable (c : Crossword) (d : Domains) (a : Assignment) :
    Except Err Var :=
  let unassigned := c.vars.filter (fun v => !(hasKey a v))
  match domSizes d unassigned with
  | .error e => .error e
  | .ok sizes =>
    match minNat sizes with
    | none => .error .valueError
    | some m =>
      match filterBySize d m unassigned with
      | .error e => .error e
      | .ok mrv =>
        match mrv with
        | [] => .error .valueError
        | v :: vs => if vs.length == 0 then .ok v else .ok (maxByDegreeFirst c v vs)

/-- The `for value in self.order_domain_values(var, assignment)` loop of
`backtrack` (`generate.py` lines 241-261), parametrized by the recursive
call.  `saved_domains` is a deep copy of the dict, which in this pure model
is the value `d` itself; both failure paths restore it (lines 260-261). -/
def tryValues (c : Crossword)
    (recur : Domains → Assignment → Except Err (Option Assignment × Domains))
    (d : Domains) (a : Assignment) (var : Var) :
    List Word → Except Err (Option Assignment × Domains)
  | [] => .ok (none, d)
  | value :: rest =>
    match consistent c (a ++ [(var, value)]) with
    | .error e => .error e
    | .ok false => tryValues c recur d a var rest
    | .ok true =>
      match ac3 c (domSet d var [value])
          (some ((c.neighbors var).map (fun n => (n, var)))) with
      | .error e => .error e
      | .ok (false, _) => tryValues c recur d a var rest
      | .ok (true, d2) =>
        match recur d2 (a ++ [(var, value)]) with
        | .error e => .error e
        | .ok (some result, d3) => .ok (some result, d3)
        | .ok (none, _) => tryValues c recur d a var rest

/-- `backtrack` (`generate.py` lines 231-263), indexed by fuel (recursion
depth; each recursive call assigns one more slot).  `new_assignment` extends
the dict with the fresh key `var`, i.e. appends in insertion order. -/
def backtrackGo (c : Crossword) : Nat → Domains → Assignment →
    Except Err (Option Assignment × Domains)
  | 0, _, _ => .error .outOfFuel
  | fuel + 1, d, a =>
    if assignment_complete c a then .ok (some a, d)
    else
      match select_unassigned_variable c d a with
      | .error e => .error e
      | .ok var =>
        match order_domain_values c d a var with
        | .error e => .error e
        | .ok values => tryValues c (backtrackGo c fuel) d a var values

/-- The value loop of `crossword.py`'s `backtrack` (lines 230-250): identical
except that forward checking calls `crossword.py`'s `ac3`. -/
def tryValuesC (c : Crossword)
    (recur : Domains → Assignment → Except Err (Option Assignment × Domains))
    (d : Domains) (a : Assignment) (var : Var) :
    List Word → Except Err (Option Assignment × Domains)
  | [] => .ok (none, d)
  | value :: rest =>
    match consistent c (a ++ [(var, value)]) with
    | .error e => .error e
    | .ok false => tryValuesC c recur d a var rest
    | .ok true =>
      match ac3C c (domSet d var [value])
          (some ((c.neighbors var).map (fun n => (n, var)))) with
      | .error e => .error e
      | .ok (false, _) => tryValuesC c recur d a var rest
      | .ok (true, d2) =>
        match recur d2 (a ++ [(var, value)]) with
        | .error e => .error e
        | .ok (some result, d3) => .ok (some result, d3)
        | .ok (none, _) => tryValuesC c recur d a var rest

/-- `backtrack` of `crossword.py` (lines 221-252). -/
def backtrackGoC (c : Crossword) : Nat → Domains → Assignment →
    Except Err (Option Assignment × Domains)
  | 0, _, _ => .error .outOfFuel
  | fuel + 1, d, a =>
    if assignment_complete c a then .ok (some a, d)
    else
      match select_unassigned_variable c d a with
      | .error e => .error e
      | .ok var =>
        match order_domain_values c d a var with
        | .error e => .error e
        | .ok values => tryValuesC c (backtrackGoC c fuel) d a var values

/-- `solve` (`generate.py` lines 88-94): node consistency, a full AC-3 pass
(its Boolean result is discarded, its domain pruning kept), then backtracking
from the empty assignment.  Backtracking depth is bounded by the number of
slots, so `|variables| + 1` fuel suffices (proved below). -/
def solveG (c : Crossword) : Except Err (Option Assignment) :=
  match ac3 c (enforce_node_consistency (initDomains c)) none with
  | .error e => .error e
  | .ok (_, d2) =>
    match backtrackGo c (c.vars.length + 1) d2 [] with
    | .error e => .error e
    | .ok (res, _) => .ok res

/-- `solve` of `crossword.py` (lines 88-94). -/
def solveC (c : Crossword) : Except Err (Option Assignment) :=
  match ac3C c (enforceNodeConsistencyC (initDomains c)) none with
  | .error e => .error e
  | .ok (_, d2) =>
    match backtrackGoC c (c.vars.length + 1) d2 [] with
    | .error e => .error e
    | .ok (res, _) => .ok res

/-! ### Definitions used by the statements and proofs -/

/-- A word `w` has a supporting partner in the domain `dy` at overlap
`(i, j)`: some `u` in `dy` carries the same character at position `j` as `w`
at position `i`. -/
def hasSupport (i j : Nat) (w : Word) (dy : List Word) : Bool :=
  dy.any (fun u =>
    match w[i]?, u[j]? with
    | some a, some b => a == b
    | _, _ => false)

/-- The Boolean outcome of `existsMatch`, as a total predicate used to state
what `reviseFilter` keeps. -/
def keepB (i j : Nat) (dy : List Word) (w : Word) : Bool :=
  match existsMatch i j w dy with
  | .ok true => true
  | _ => false

/-- Well-formedness of one overlap entry between distinct slots: an entry is
present; a non-`none` entry has in-range indices and a mirrored entry in the
opposite direction. -/
def entryOk (c : Crossword) (x y : Var) : Bool :=
  match overlapGet c x y with
  | none => false
  | some none => true
  | some (some (i, j)) =>
    decide (i < x.length) && decide (j < y.length) &&
      (overlapGet c y x == some (some (j, i)))

/-- No slot overlaps itself. -/
def selfOk (c : Crossword) (x : Var) : Bool :=
  match overlapGet c x x with
  | some (some _) => false
  | _ => true

/-- Well-formed puzzle structure: the overlap map has an entry for every
ordered pair of distinct slots, entries are in range and mirrored, and no
slot overlaps itself. -/
def wfB (c : Crossword) : Bool :=
  c.vars.all (fun x => selfOk c x && c.vars.all (fun y => x == y || entryOk c x y))

/-- The precondition of the equivalence claim: the overlap map contains an
entry (possibly `none`) for every ordered pair of distinct slots. -/
def overlapsTotal (c : Crossword) : Bool :=
  c.vars.all (fun x => c.vars.all (fun y => x == y || (overlapGet c x y).isSome))

/-- Every word of every domain belongs to the word list. -/
def subWords (c : Crossword) (d : Domains) : Prop :=
  ∀ p ∈ d, ∀ w ∈ p.2, w ∈ c.words

/-- The domain map binds exactly the puzzle's slots, in slot order. -/
def dkeys (c : Crossword) (d : Domains) : Prop :=
  d.map Prod.fst = c.vars

/-- Every domain word has its slot's length (node consistency). -/
def dlens (d : Domains) : Prop :=
  ∀ p ∈ d, ∀ w ∈ p.2, w.length = p.1.length

/-- Combined domain invariant maintained throughout `solve`. -/
def DInv (c : Crossword) (d : Domains) : Prop :=
  dkeys c d ∧ dlens d ∧ subWords c d

/-- Assignment invariant maintained throughout `backtrack`: keys are slots
and every value has its slot's length. -/
def ainv (c : Crossword) (a : Assignment) : Prop :=
  ∀ p ∈ a, p.1 ∈ c.vars ∧ p.2.length = p.1.length

/-- Every assigned word comes from the given word list. -/
def valuesFrom (a : Assignment) (ws : List Word) : Prop :=
  ∀ p ∈ a, p.2 ∈ ws

/-- Arc queues fed to the AC-3 loop along `solve`: both ends are slots and
the overlap map has an entry for the pair. -/
def arcsWF (c : Crossword) (q : List (Var × Var)) : Prop :=
  ∀ p ∈ q, p.1 ∈ c.vars ∧ p.2 ∈ c.vars ∧ (overlapGet c p.1 p.2).isSome

/-- Arc queues whose pairs are distinct slots (used by the equivalence
claim). -/
def arcsDistinct (c : Crossword) (q : List (Var × Var)) : Prop :=
  ∀ p ∈ q, p.1 ∈ c.vars ∧ p.2 ∈ c.vars ∧ p.1 ≠ p.2

/-- Semantic arc consistency of the pair `(x, y)` at overlap `(i, j)`: every
word remaining in `x`'s domain has a supporting word in `y`'s domain. -/
def arcCons (d : Domains) (x y : Var) (i j : Nat) : Prop :=
  ∀ dx, domGet d x = .ok dx → ∀ w ∈ dx,
    ∃ dy, domGet d y = .ok dy ∧
      ∃ u ∈ dy, ∃ ch, w[i]? = some ch ∧ u[j]? = some ch

/-- Number of not-yet-assigned slots; the recursion measure of `backtrack`. -/
def unassignedCount (c : Crossword) (a : Assignment) : Nat :=
  (c.vars.filter (fun v => !(hasKey a v))).length

/-! ### Concrete instances used by witnesses and counterexamples -/

/-- A length-2 across slot at the origin. -/
def va : Var := ⟨0, 0, false, 2⟩

/-- A length-2 down slot at the origin, crossing `va` at both slots' first
characters. -/
def vd : Var := ⟨0, 0, true, 2⟩

/-- A length-3 down slot at the origin. -/
def vd3 : Var := ⟨0, 0, true, 3⟩

/-- An isolated length-3 slot. -/
def vIso : Var := ⟨5, 5, false, 3⟩

/-- Two crossing length-2 slots sharing their first characters, with word
list cat-fragment style words: solvable. -/
def cxPair : Crossword :=
  ⟨[va, vd], [['c', 'a'], ['a', 't'], ['c', 't']],
   [((va, vd), some (0, 0)), ((vd, va), some (0, 0))]⟩

/-- One isolated slot whose word list has no word of the right length: its
domain empties under node consistency, yet no arc ever examines it. -/
def cxIso : Crossword := ⟨[vIso], [['a', 'b']], []⟩

/-- One isolated slot and an empty word list: unsatisfiable. -/
def cxNoWords : Crossword := ⟨[vIso], [], []⟩

/-- A length-2 slot crossing a length-3 slot; the only word fits the first
slot, so the second slot's domain empties under node consistency. -/
def cxEmptyNbr : Crossword :=
  ⟨[va, vd3], [['a', 'b']],
   [((va, vd3), some (0, 0)), ((vd3, va), some (0, 0))]⟩

/-- Invariant of the AC-3 loop: every constrained ordered pair of slots is
either still queued or already arc consistent. -/
def ac3Inv (c : Crossword) (d : Domains) (q : List (Var × Var)) : Prop :=
  ∀ x y i j, x ∈ c.vars → y ∈ c.vars →
    overlapGet c x y = some (some (i, j)) →
    ((x, y) ∈ q ∨ arcCons d x y i j)

/-- The assignment `solve` finds for `cxPair`. -/
def aSol : Assignment := [(va, ['c', 'a']), (vd, ['c', 't'])]

/-! ### Basic lemmas: association lists -/

theorem domGet_ok_mem {d : Domains} {x : Var} {ws : List Word}
    (h : domGet d x = .ok ws) : (x, ws) ∈ d := by
  induction d with
  | nil => simp [domGet, List.find?] at h
  | cons p rest ih =>
    by_cases hp : p.1 = x
    · simp [domGet, List.find?, hp] at h
      subst hp
      cases h
      exact List.mem_cons_self _ _
    · simp only [domGet, List.find?] at h
      rw [show (p.1 == x) = false by simpa using hp] at h
      exact List.mem_cons_of_mem _ (ih h)

theorem mem_keys_domGet {d : Domains} {x : Var}
    (h : x ∈ d.map Prod.fst) : ∃ ws, domGet d x = .ok ws := by
  induction d with
  | nil => simp at h
  | cons p rest ih =>
    by_cases hp : p.1 = x
    · exact ⟨p.2, by simp [domGet, List.find?, hp]⟩
    · simp only [List.map_cons, List.mem_cons] at h
      rcases h with h | h
      · exact absurd h.symm hp
      · obtain ⟨ws, hws⟩ := ih h
        refine ⟨ws, ?_⟩
        simp only [domGet, List.find?] at hws ⊢
        rw [show (p.1 == x) = false by simpa using hp]
        exact hws

theorem domGet_domSet_self (d : Domains) (x : Var) (ws : List Word) :
    domGet (domSet d x ws) x = .ok ws := by
  induction d with
  | nil => simp [domSet, domGet, List.find?]
  | cons p rest ih =>
    by_cases hp : p.1 = x
    · simp [domSet, hp, domGet, List.find?]
    · simp only [domSet]
      rw [show (p.1 == x) = false by simpa using hp]
      simp only [ite_false, Bool.false_eq_true]
      simpa [domGet, List.find?, show (p.1 == x) = false by simpa using hp] using ih

theorem domGet_domSet_other {z x : Var} (hzx : z ≠ x) (d : Domains) (ws : List Word) :
    domGet (domSet d x ws) z = domGet d z := by
  induction d with
  | nil => simp [domSet, domGet, List.find?, show (x == z) = false by simpa using (Ne.symm hzx)]
  | cons p rest ih =>
    by_cases hp : p.1 = x
    · subst hp
      simp only [domSet, beq_self_eq_true, ite_true]
      simp [domGet, List.find?, show (p.1 == z) = false by simpa using (Ne.symm hzx)]
    · simp only [domSet]
      rw [show (p.1 == x) = false by simpa using hp]
      simp only [ite_false, Bool.false_eq_true]
      by_cases hpz : p.1 = z
      · simp [domGet, List.find?, hpz]
      · simp only [domGet, List.find?] at ih ⊢
        rw [show (p.1 == z) = false by simpa using hpz]
        exact ih

theorem keys_domSet {d : Domains} {x : Var} (ws : List Word)
    (h : x ∈ d.map Prod.fst) :
    (domSet d x ws).map Prod.fst = d.map Prod.fst := by
  induction d with
  | nil => simp at h
  | cons p rest ih =>
    by_cases hp : p.1 = x
    · simp [domSet, hp]
    · simp only [List.map_cons, List.mem_cons] at h
      rcases h with h | h
      · exact absurd h.symm hp
      · simp only [domSet]
        rw [show (p.1 == x) = false by simpa using hp]
        simp [ih h]

theorem totalSize_domSet {d : Domains} {x : Var} {dx : List Word}
    (h : domGet d x = .ok dx) (ws : List Word) :
    totalSize (domSet d x ws) + dx.length = totalSize d + ws.length := by
  induction d with
  | nil => simp [domGet, List.find?] at h
  | cons p rest ih =>
    by_cases hp : p.1 = x
    · simp only [domGet, List.find?, show (p.1 == x) = true by simpa using hp] at h
      cases h
      simp [domSet, hp, totalSize]
      omega
    · simp only [domGet, List.find?] at h
      rw [show (p.1 == x) = false by simpa using hp] at h
      have := ih h
      simp only [domSet]
      rw [show (p.1 == x) = false by simpa using hp]
      simp only [ite_false, Bool.false_eq_true, totalSize, List.map_cons, List.sum_cons]
      simp only [totalSize] at this
      omega

theorem hasKey_iff_mem_keys {α : Type} (l : List (Var × α)) (v : Var) :
    hasKey l v = true ↔ v ∈ l.map Prod.fst := by
  simp only [hasKey, List.any_eq_true, List.mem_map]
  constructor
  · rintro ⟨p, hp, he⟩
    exact ⟨p, hp, by simpa using he⟩
  · rintro ⟨p, hp, he⟩
    exact ⟨p, hp, by simpa using he⟩

theorem assignGet_ok_mem {a : Assignment} {x : Var} {w : Word}
    (h : assignGet a x = .ok w) : (x, w) ∈ a := by
  induction a with
  | nil => simp [assignGet, List.find?] at h
  | cons p rest ih =>
    by_cases hp : p.1 = x
    · simp [assignGet, List.find?, hp] at h
      subst hp
      cases h
      exact List.mem_cons_self _ _
    · simp only [assignGet, List.find?] at h
      rw [show (p.1 == x) = false by simpa using hp] at h
      exact List.mem_cons_of_mem _ (ih h)

theorem hasKey_assignGet {a : Assignment} {v : Var}
    (h : hasKey a v = true) : ∃ w, assignGet a v = .ok w := by
  induction a with
  | nil => simp [hasKey] at h
  | cons p rest ih =>
    by_cases hp : p.1 = v
    · exact ⟨p.2, by simp [assignGet, List.find?, hp]⟩
    · simp only [hasKey, List.any_cons] at h
      rw [show (p.1 == v) = false by simpa using hp] at h
      simp only [Bool.false_or] at h
      obtain ⟨w, hw⟩ := ih h
      refine ⟨w, ?_⟩
      simp only [assignGet, List.find?] at hw ⊢
      rw [show (p.1 == v) = false by simpa using hp]
      exact hw

/-! ### Lemmas about `existsMatch`, `reviseFilter` and `revise` -/

theorem charAt_ok {w : Word} {i : Nat} {ch : Char}
    (h : charAt w i = .ok ch) : w[i]? = some ch := by
  simp only [charAt] at h
  cases hg : w[i]? <;> rw [hg] at h <;> simp_all

theorem charAt_of_lt {w : Word} {i : Nat} (h : i < w.length) :
    ∃ ch, charAt w i = .ok ch := by
  refine ⟨w[i], ?_⟩
  simp [charAt, List.getElem?_eq_getElem h]

theorem existsMatch_ok_eq {i j : Nat} {w : Word} {dy : List Word} {b : Bool}
    (h : existsMatch i j w dy = .ok b) : b = hasSupport i j w dy := by
  induction dy with
  | nil =>
    simp only [existsMatch] at h
    cases h
    simp [hasSupport]
  | cons u rest ih =>
    simp only [existsMatch] at h
    cases hci : charAt w i with
    | error e => rw [hci] at h; cases h
    | ok ca =>
      cases hcj : charAt u j with
      | error e => simp only [hci, hcj] at h; cases h
      | ok cb =>
        simp only [hci, hcj] at h
        have hwi := charAt_ok hci
        have huj := charAt_ok hcj
        by_cases hab : ca = cb
        · subst hab
          simp only [beq_self_eq_true, if_true] at h
          cases h
          simp [hasSupport, List.any_cons, hwi, huj]
        · rw [if_neg (by simpa using hab)] at h
          have := ih h
          simp only [hasSupport, List.any_cons, hwi, huj] at this ⊢
          rw [show (ca == cb) = false by simpa using hab]
          simpa using this

theorem hasSupport_iff {i j : Nat} {w : Word} {dy : List Word} :
    hasSupport i j w dy = true ↔
      ∃ u ∈ dy, ∃ ch, w[i]? = some ch ∧ u[j]? = some ch := by
  simp only [hasSupport, List.any_eq_true]
  constructor
  · rintro ⟨u, hu, hm⟩
    refine ⟨u, hu, ?_⟩
    cases hg : w[i]? with
    | none => rw [hg] at hm; cases hh : u[j]? <;> rw [hh] at hm <;> simp at hm
    | some ca =>
      rw [hg] at hm
      cases hh : u[j]? with
      | none => rw [hh] at hm; simp at hm
      | some cb =>
        rw [hh] at hm
        simp only at hm
        have hcc : ca = cb := by simpa using hm
        subst hcc
        exact ⟨ca, rfl, rfl⟩
  · rintro ⟨u, hu, ch, hwi, huj⟩
    refine ⟨u, hu, ?_⟩
    rw [hwi, huj]
    simp

theorem reviseFilter_ok {i j : Nat} {dy dx dx2 : List Word}
    (h : reviseFilter i j dy dx = .ok dx2) :
    dx2 = dx.filter (keepB i j dy) ∧
      ∀ w ∈ dx, ∃ b, existsMatch i j w dy = .ok b := by
  induction dx generalizing dx2 with
  | nil =>
    simp only [reviseFilter] at h
    cases h
    exact ⟨rfl, by simp⟩
  | cons xw rest ih =>
    simp only [reviseFilter] at h
    cases hem : existsMatch i j xw dy with
    | error e => rw [hem] at h; cases h
    | ok keep =>
      cases hrf : reviseFilter i j dy rest with
      | error e => simp only [hem, hrf] at h; cases h
      | ok tail =>
        simp only [hem, hrf] at h
        cases h
        obtain ⟨htail, hall⟩ := ih hrf
        constructor
        · cases keep with
          | true =>
            rw [if_pos rfl, htail, List.filter_cons,
              if_pos (show keepB i j dy xw = true by simp [keepB, hem])]
          | false =>
            rw [if_neg (by simp), htail, List.filter_cons,
              if_neg (by simp [keepB, hem])]
        · intro w hw
          rcases List.mem_cons.mp hw with hw | hw
          · exact ⟨keep, hw ▸ hem⟩
          · exact hall w hw

theorem reviseFilter_sublist {i j : Nat} {dy dx dx2 : List Word}
    (h : reviseFilter i j dy dx = .ok dx2) : dx2.Sublist dx := by
  rw [(reviseFilter_ok h).1]
  exact List.filter_sublist dx

theorem reviseG_ok_false {c : Crossword} {d d2 : Domains} {x y : Var}
    (h : reviseG c d x y = .ok (false, d2)) : d2 = d := by
  unfold reviseG at h
  split at h
  · cases h
  · cases h; rfl
  · split at h
    · cases h
    · cases h
    · split at h
      · cases h
      · split at h
        · cases h; rfl
        · cases h

theorem reviseG_ok_true {c : Crossword} {d d2 : Domains} {x y : Var}
    (h : reviseG c d x y = .ok (true, d2)) :
    ∃ i j dx dy dx2, overlapGet c x y = some (some (i, j)) ∧
      domGet d x = .ok dx ∧ domGet d y = .ok dy ∧
      reviseFilter i j dy dx = .ok dx2 ∧ dx2.length < dx.length ∧
      d2 = domSet d x dx2 := by
  unfold reviseG at h
  split at h
  · cases h
  · cases h
  · rename_i ov i j hov
    split at h
    · cases h
    · cases h
    · rename_i dx dy hdx hdy
      split at h
      · cases h
      · rename_i dx2 hrf
        split at h
        · cases h
        · rename_i hlen
          cases h
          have hsub := reviseFilter_sublist hrf
          have hle := hsub.length_le
          have hne : dx2.length ≠ dx.length := by simpa using hlen
          have hov2 : overlapGet c x y = some (some (i, j)) := by
            simp only [overlapIdx] at hov
            cases hg : overlapGet c x y <;> rw [hg] at hov <;> simp_all
          exact ⟨i, j, dx, dy, dx2, hov2, hdx, hdy, hrf, lt_of_le_of_ne hle hne, rfl⟩

theorem reviseG_ok_other {c : Crossword} {d d2 : Domains} {x y z : Var} {r : Bool}
    (h : reviseG c d x y = .ok (r, d2)) (hzx : z ≠ x) :
    domGet d2 z = domGet d z := by
  cases r with
  | false => rw [reviseG_ok_false h]
  | true =>
    obtain ⟨i, j, dx, dy, dx2, _, _, _, _, _, hd2⟩ := reviseG_ok_true h
    rw [hd2, domGet_domSet_other hzx]

theorem reviseG_ok_sub {c : Crossword} {d d2 : Domains} {x y : Var} {r : Bool}
    (h : reviseG c d x y = .ok (r, d2)) :
    ∀ v ws2, domGet d2 v = .ok ws2 →
      ∃ ws, domGet d v = .ok ws ∧ ws2.Sublist ws := by
  intro v ws2 hv
  cases r with
  | false =>
    rw [reviseG_ok_false h] at hv
    exact ⟨ws2, hv, List.Sublist.refl _⟩
  | true =>
    obtain ⟨i, j, dx, dy, dx2, _, hdx, _, hrf, _, hd2⟩ := reviseG_ok_true h
    by_cases hvx : v = x
    · subst hvx
      rw [hd2, domGet_domSet_self] at hv
      cases hv
      exact ⟨dx, hdx, reviseFilter_sublist hrf⟩
    · rw [hd2, domGet_domSet_other hvx] at hv
      exact ⟨ws2, hv, List.Sublist.refl _⟩

theorem reviseG_ok_size {c : Crossword} {d d2 : Domains} {x y : Var} {r : Bool}
    (h : reviseG c d x y = .ok (r, d2)) :
    totalSize d2 ≤ totalSize d ∧ (r = true → totalSize d2 < totalSize d) := by
  cases r with
  | false => rw [reviseG_ok_false h]; exact ⟨le_refl _, by simp⟩
  | true =>
    obtain ⟨i, j, dx, dy, dx2, _, hdx, _, hrf, hlt, hd2⟩ := reviseG_ok_true h
    have := totalSize_domSet hdx dx2
    rw [← hd2] at this
    exact ⟨by omega, fun _ => by omega⟩

theorem reviseG_ok_keys {c : Crossword} {d d2 : Domains} {x y : Var} {r : Bool}
    (h : reviseG c d x y = .ok (r, d2)) :
    d2.map Prod.fst = d.map Prod.fst := by
  cases r with
  | false => rw [reviseG_ok_false h]
  | true =>
    obtain ⟨i, j, dx, dy, dx2, _, hdx, _, _, _, hd2⟩ := reviseG_ok_true h
    have hx : x ∈ d.map Prod.fst :=
      List.mem_map.mpr ⟨(x, dx), domGet_ok_mem hdx, rfl⟩
    rw [hd2, keys_domSet _ hx]

theorem charAt_error {w : Word} {i : Nat} {e : Err}
    (h : charAt w i = .error e) : e = .indexError := by
  simp only [charAt] at h
  cases hg : w[i]? <;> rw [hg] at h <;> simp_all

theorem domGet_error {d : Domains} {x : Var} {e : Err}
    (h : domGet d x = .error e) : e = .keyError := by
  simp only [domGet] at h
  cases hg : d.find? (fun p => p.1 == x) <;> rw [hg] at h <;> simp_all

theorem overlapIdx_error {c : Crossword} {x y : Var} {e : Err}
    (h : overlapIdx c x y = .error e) : e = .keyError := by
  simp only [overlapIdx] at h
  cases hg : overlapGet c x y <;> rw [hg] at h <;> simp_all

theorem existsMatch_error {i j : Nat} {w : Word} {dy : List Word} {e : Err}
    (h : existsMatch i j w dy = .error e) : e = .indexError := by
  induction dy with
  | nil => simp [existsMatch] at h
  | cons u rest ih =>
    simp only [existsMatch] at h
    cases hci : charAt w i with
    | error e2 =>
      rw [hci] at h
      cases h
      exact charAt_error hci
    | ok ca =>
      cases hcj : charAt u j with
      | error e2 =>
        simp only [hci, hcj] at h
        cases h
        exact charAt_error hcj
      | ok cb =>
        simp only [hci, hcj] at h
        split at h
        · cases h
        · exact ih h

theorem reviseFilter_error {i j : Nat} {dy dx : List Word} {e : Err}
    (h : reviseFilter i j dy dx = .error e) : e = .indexError := by
  induction dx with
  | nil => simp [reviseFilter] at h
  | cons xw rest ih =>
    simp only [reviseFilter] at h
    cases hm : existsMatch i j xw dy with
    | error e2 =>
      rw [hm] at h
      cases h
      exact existsMatch_error hm
    | ok keep =>
      cases hr : reviseFilter i j dy rest with
      | error e2 =>
        simp only [hm, hr] at h
        cases h
        exact ih hr
      | ok tail => simp [hm, hr] at h

theorem reviseG_error {c : Crossword} {d : Domains} {x y : Var} {e : Err}
    (h : reviseG c d x y = .error e) : e = .keyError ∨ e = .indexError := by
  unfold reviseG at h
  split at h
  · rename_i hov
    cases h
    exact Or.inl (overlapIdx_error hov)
  · cases h
  · split at h
    · rename_i hdx
      cases h
      exact Or.inl (domGet_error hdx)
    · rename_i hdy
      cases h
      exact Or.inl (domGet_error hdy)
    · split at h
      · rename_i hrf
        cases h
        exact Or.inr (reviseFilter_error hrf)
      · split at h <;> cases h

theorem reviseG_ne_outOfFuel {c : Crossword} {d : Domains} {x y : Var} :
    reviseG c d x y ≠ .error .outOfFuel := by
  intro h
  rcases reviseG_error h with h2 | h2 <;> cases h2

theorem domGet_enforce {d : Domains} {v : Var} {ws : List Word}
    (h : domGet d v = .ok ws) :
    domGet (enforce_node_consistency d) v =
      .ok (ws.filter (fun w => w.length == v.length)) := by
  induction d with
  | nil => simp [domGet, List.find?] at h
  | cons p rest ih =>
    by_cases hp : p.1 = v
    · subst hp
      simp only [domGet, List.find?, beq_self_eq_true] at h
      cases h
      simp [enforce_node_consistency, domGet, List.find?]
    · simp only [domGet, List.find?] at h
      rw [show (p.1 == v) = false by simpa using hp] at h
      simp only [enforce_node_consistency, List.map_cons] at ih ⊢
      simp only [domGet, List.find?]
      rw [show (p.1 == v) = false by simpa using hp]
      exact ih h

/-- C5: after `enforce_node_consistency`, a slot's domain is exactly its old
domain filtered to the words of the slot's length — every surviving word has
the slot's length, only words of differing length are removed, and the
result is an ordinary domain map (no error is signalled) even when the
filtered domain is empty. -/
theorem C5_enforce_node_consistency_spec (d : Domains) (v : Var) (ws : List Word)
    (h : domGet d v = .ok ws) :
    ∃ ws2, domGet (enforce_node_consistency d) v = .ok ws2 ∧
      ws2 = ws.filter (fun w => w.length == v.length) ∧
      (∀ w ∈ ws2, w.length = v.length) ∧
      (∀ w ∈ ws, w.length = v.length → w ∈ ws2) := by
  refine ⟨ws.filter (fun w => w.length == v.length), domGet_enforce h, rfl, ?_, ?_⟩
  · intro w hw
    simpa using (List.mem_filter.mp hw).2
  · intro w hw hlen
    exact List.mem_filter.mpr ⟨hw, by simpa using hlen⟩

/-- Witness for C5 at a concrete domain map. -/
theorem C5_witness :
    ∃ ws2, domGet (enforce_node_consistency (initDomains cxIso)) vIso = .ok ws2 ∧
      ws2 = [['a', 'b']].filter (fun w => w.length == vIso.length) ∧
      (∀ w ∈ ws2, w.length = vIso.length) ∧
      (∀ w ∈ [['a', 'b']], w.length = vIso.length → w ∈ ws2) :=
  C5_enforce_node_consistency_spec (initDomains cxIso) vIso [['a', 'b']] rfl

/-- C6: `revise(x, y)` with a `none` overlap entry is a no-op returning
`false`; with an overlap `(i, j)` it removes from `x`'s domain exactly the
words with no supporting partner in `y`'s domain, leaves every other slot's
domain unchanged, and returns `true` iff at least one word was removed. -/
theorem C6_revise_spec {c : Crossword} {d d2 : Domains} {x y : Var} {r : Bool}
    {ov : Option (Nat × Nat)}
    (hov : overlapGet c x y = some ov)
    (h : reviseG c d x y = .ok (r, d2)) :
    (ov = none → r = false ∧ d2 = d) ∧
    (∀ i j, ov = some (i, j) →
      ∀ dx dy, domGet d x = .ok dx → domGet d y = .ok dy →
        domGet d2 x = .ok (dx.filter (fun w => hasSupport i j w dy)) ∧
        (∀ z, z ≠ x → domGet d2 z = domGet d z) ∧
        (r = true ↔ dx.filter (fun w => hasSupport i j w dy) ≠ dx)) := by
  constructor
  · rintro rfl
    simp only [reviseG, overlapIdx, hov] at h
    have h2 : (false, d) = (r, d2) := by simpa using h
    exact ⟨(congrArg Prod.fst h2).symm, (congrArg Prod.snd h2).symm⟩
  · rintro i j rfl dx dy hdx hdy
    simp only [reviseG, overlapIdx, hov, hdx, hdy] at h
    cases hrf : reviseFilter i j dy dx with
    | error e => rw [hrf] at h; cases h
    | ok dx2 =>
      rw [hrf] at h
      dsimp only at h
      obtain ⟨hfil, hall⟩ := reviseFilter_ok hrf
      have hcong : List.filter (keepB i j dy) dx =
          List.filter (fun w => hasSupport i j w dy) dx := by
        apply List.filter_congr
        intro w hw
        obtain ⟨b, hb⟩ := hall w hw
        rw [show keepB i j dy w = b by cases b <;> simp [keepB, hb],
          existsMatch_ok_eq hb]
      by_cases hlen : dx2.length = dx.length
      · rw [if_pos (by simpa using hlen)] at h
        have h2 : (false, d) = (r, d2) := by simpa using h
        have hr : r = false := (congrArg Prod.fst h2).symm
        have hd : d2 = d := (congrArg Prod.snd h2).symm
        have hdx2 : dx2 = dx := (reviseFilter_sublist hrf).eq_of_length hlen
        have hfe : List.filter (fun w => hasSupport i j w dy) dx = dx := by
          rw [← hcong, ← hfil, hdx2]
        refine ⟨?_, ?_, ?_⟩
        · rw [hd, hfe, hdx]
        · intro z _; rw [hd]
        · simp [hr, hfe]
      · rw [if_neg (by simpa using hlen)] at h
        have h2 : (true, domSet d x dx2) = (r, d2) := by simpa using h
        have hr : r = true := (congrArg Prod.fst h2).symm
        have hd : d2 = domSet d x dx2 := (congrArg Prod.snd h2).symm
        have hfe : List.filter (fun w => hasSupport i j w dy) dx = dx2 := by
          rw [← hcong, ← hfil]
        refine ⟨?_, ?_, ?_⟩
        · rw [hd, hfe, domGet_domSet_self]
        · intro z hz; rw [hd, domGet_domSet_other hz]
        · rw [hfe]
          simp only [hr, true_iff]
          intro hc
          exact hlen (congrArg List.length hc)

/-- Witness for C6: the crossing pair of `cxPair`, where words lacking a
partner at the overlap are removed. -/
theorem C6_witness :
    (some (0, 0) = (none : Option (Nat × Nat)) →
      False ∧ initDomains cxPair = initDomains cxPair) ∧
    (∀ i j, (some (0, 0) : Option (Nat × Nat)) = some (i, j) →
      ∀ dx dy, domGet (initDomains cxPair) va = .ok dx →
        domGet (initDomains cxPair) vd = .ok dy →
        domGet (initDomains cxPair) va = .ok (dx.filter (fun w => hasSupport i j w dy)) ∧
        (∀ z, z ≠ va → domGet (initDomains cxPair) z = domGet (initDomains cxPair) z) ∧
        (false = true ↔ dx.filter (fun w => hasSupport i j w dy) ≠ dx)) := by
  have := @C6_revise_spec cxPair (initDomains cxPair) (initDomains cxPair)
    va vd false (some (0, 0)) rfl rfl
  constructor
  · intro hc; cases hc
  · exact this.2

theorem tryValues_none_frame {c : Crossword}
    {recur : Domains → Assignment → Except Err (Option Assignment × Domains)}
    {d d2 : Domains} {a : Assignment} {var : Var} {vals : List Word}
    (h : tryValues c recur d a var vals = .ok (none, d2)) : d2 = d := by
  induction vals with
  | nil =>
    simp only [tryValues] at h
    have h2 : ((none : Option Assignment), d) = (none, d2) := by simpa using h
    exact (congrArg Prod.snd h2).symm
  | cons value rest ih =>
    simp only [tryValues] at h
    cases hcon : consistent c (a ++ [(var, value)]) with
    | error e => rw [hcon] at h; cases h
    | ok b =>
      rw [hcon] at h
      cases b with
      | false => exact ih h
      | true =>
        dsimp only at h
        cases hac : ac3 c (domSet d var [value])
            (some ((c.neighbors var).map (fun n => (n, var)))) with
        | error e => rw [hac] at h; cases h
        | ok p =>
          rw [hac] at h
          obtain ⟨bb, dmid⟩ := p
          cases bb with
          | false => exact ih h
          | true =>
            dsimp only at h
            cases hrec : recur dmid (a ++ [(var, value)]) with
            | error e => rw [hrec] at h; cases h
            | ok q =>
              rw [hrec] at h
              obtain ⟨res, d3⟩ := q
              cases res with
              | some result => dsimp only at h; cases h
              | none => exact ih h

/-- C7: whenever `backtrack` returns failure (`None`), the domain map at
return equals the domain map at entry — every tried candidate restored the
saved snapshot before the next one (or the final failure return). -/
theorem C7_backtrack_restores_domains {c : Crossword} {fuel : Nat}
    {d d2 : Domains} {a : Assignment}
    (h : backtrackGo c fuel d a = .ok (none, d2)) : d2 = d := by
  cases fuel with
  | zero => cases h
  | succ n =>
    simp only [backtrackGo] at h
    by_cases hcomp : assignment_complete c a = true
    · rw [if_pos hcomp] at h
      cases h
    · rw [if_neg hcomp] at h
      cases hsel : select_unassigned_variable c d a with
      | error e => rw [hsel] at h; cases h
      | ok var =>
        rw [hsel] at h
        dsimp only at h
        cases hord : order_domain_values c d a var with
        | error e => rw [hord] at h; cases h
        | ok values =>
          rw [hord] at h
          dsimp only at h
          exact tryValues_none_frame h

/-- Witness for C7: an unsatisfiable one-slot puzzle whose backtracking call
fails and hands back the entry domain map unchanged. -/
theorem C7_witness :
    backtrackGo cxNoWords 2 [(vIso, [])] [] = .ok (none, [(vIso, [])]) ∧
      ([(vIso, [])] : Domains) = [(vIso, [])] :=
  ⟨rfl, @C7_backtrack_restores_domains cxNoWords 2 [(vIso, [])]
    [(vIso, [])] [] rfl⟩

theorem mem_neighbors {c : Crossword} {x y : Var} :
    y ∈ c.neighbors x ↔
      y ∈ c.vars ∧ y ≠ x ∧ ∃ e, overlapGet c x y = some (some e) := by
  simp only [Crossword.neighbors, List.mem_filter, Bool.and_eq_true,
    Bool.not_eq_true']
  constructor
  · rintro ⟨hy, hne, hm⟩
    refine ⟨hy, by simpa using hne, ?_⟩
    cases hg : overlapGet c x y with
    | none => rw [hg] at hm; cases hm
    | some e =>
      cases e with
      | none => rw [hg] at hm; cases hm
      | some pr => exact ⟨pr, rfl⟩
  · rintro ⟨hy, hne, e, hg⟩
    refine ⟨hy, by simpa using hne, ?_⟩
    rw [hg]

theorem mem_fullArcs {c : Crossword} {x y : Var} :
    (x, y) ∈ fullArcs c ↔ x ∈ c.vars ∧ y ∈ c.neighbors x := by
  simp only [fullArcs, List.mem_flatten, List.mem_map]
  constructor
  · rintro ⟨l, ⟨x2, hx2, rfl⟩, hmem⟩
    obtain ⟨y2, hy2, he⟩ := List.mem_map.mp hmem
    injection he with h1 h2
    subst h1
    subst h2
    exact ⟨hx2, hy2⟩
  · rintro ⟨hx, hy⟩
    exact ⟨(c.neighbors x).map (fun y2 => (x, y2)), ⟨x, hx, rfl⟩,
      List.mem_map.mpr ⟨y, hy, rfl⟩⟩

theorem reviseFilter_nil_dy (i j : Nat) (dx : List Word) :
    reviseFilter i j [] dx = .ok [] := by
  induction dx with
  | nil => rfl
  | cons xw rest ih => simp [reviseFilter, existsMatch, ih]

theorem ac3Go_cons_err {c : Crossword} {n : Nat} {d : Domains} {a b : Var}
    {rest : List (Var × Var)} {e : Err}
    (hrev : reviseG c d a b = .error e) :
    ac3Go c (n + 1) d ((a, b) :: rest) = .error e := by
  simp [ac3Go, hrev]

theorem ac3Go_cons_false {c : Crossword} {n : Nat} {d dmid : Domains}
    {a b : Var} {rest : List (Var × Var)}
    (hrev : reviseG c d a b = .ok (false, dmid)) :
    ac3Go c (n + 1) d ((a, b) :: rest) = ac3Go c n dmid rest := by
  simp [ac3Go, hrev]

theorem ac3Go_cons_true {c : Crossword} {n : Nat} {d dmid : Domains}
    {a b : Var} {rest : List (Var × Var)} {dxa : List Word}
    (hrev : reviseG c d a b = .ok (true, dmid))
    (hdom : domGet dmid a = .ok dxa) :
    ac3Go c (n + 1) d ((a, b) :: rest) =
      if dxa.length == 0 then .ok (false, dmid)
      else ac3Go c n dmid
        (rest ++ ((c.neighbors a).filter (fun z => !(z == b))).map (fun z => (z, a))) := by
  simp only [ac3Go, hrev, hdom, eq_self_iff_true, if_true]

theorem ac3Go_cons_true_err {c : Crossword} {n : Nat} {d dmid : Domains}
    {a b : Var} {rest : List (Var × Var)} {e : Err}
    (hrev : reviseG c d a b = .ok (true, dmid))
    (hdom : domGet dmid a = .error e) :
    ac3Go c (n + 1) d ((a, b) :: rest) = .error e := by
  simp [ac3Go, hrev, hdom]

theorem ac3Go_empty_nbr_aux {c : Crossword} {x v : Var} {i j : Nat}
    (hov : overlapGet c x v = some (some (i, j))) :
    ∀ (fuel : Nat) (d : Domains) (q : List (Var × Var)) (dx : List Word),
      (x, v) ∈ q → domGet d v = .ok [] → domGet d x = .ok dx → dx ≠ [] →
      ∀ d2, ac3Go c fuel d q ≠ .ok (true, d2) := by
  intro fuel
  induction fuel with
  | zero => intro d q dx _ _ _ _ d2 hrun; cases hrun
  | succ n ih =>
    intro d q dx hmem hdv hdx hne d2 hrun
    cases q with
    | nil => cases hmem
    | cons p rest =>
      obtain ⟨a, b⟩ := p
      by_cases hhead : a = x ∧ b = v
      · obtain ⟨h1, h2⟩ := hhead
        subst h1
        subst h2
        have hrev2 : reviseG c d a b = .ok (true, domSet d a []) := by
          simp only [reviseG, overlapIdx, hov, hdx, hdv, reviseFilter_nil_dy]
          rw [if_neg ?_]
          simp only [List.length_nil, beq_iff_eq]
          intro hq
          exact hne (List.length_eq_zero.mp hq.symm)
        rw [ac3Go_cons_true hrev2 (domGet_domSet_self d a []),
          if_pos (show (List.length ([] : List Word) == 0) = true from rfl)] at hrun
        cases hrun
      · have hrest : (x, v) ∈ rest := by
          rcases List.mem_cons.mp hmem with heq | h
          · injection heq with h1 h2
            exact absurd ⟨h1.symm, h2.symm⟩ hhead
          · exact h
        cases hrev : reviseG c d a b with
        | error e => rw [ac3Go_cons_err hrev] at hrun; cases hrun
        | ok pr =>
          obtain ⟨revised, dmid⟩ := pr
          cases revised with
          | false =>
            rw [ac3Go_cons_false hrev, reviseG_ok_false hrev] at hrun
            exact ih d rest dx hrest hdv hdx hne d2 hrun
          | true =>
            obtain ⟨i2, j2, dxa, dya, dx2, hov2, hdxa, hdya, hrf2, hlt, hdmid⟩ :=
              reviseG_ok_true hrev
            have hav : a ≠ v := by
              rintro rfl
              rw [hdv] at hdxa
              cases hdxa
              simp at hlt
            have hdv2 : domGet dmid v = .ok [] := by
              rw [hdmid, domGet_domSet_other (Ne.symm hav)]
              exact hdv
            have hda : domGet dmid a = .ok dx2 := by
              rw [hdmid, domGet_domSet_self]
            rw [ac3Go_cons_true hrev hda] at hrun
            by_cases hz : dx2.length = 0
            · rw [if_pos (by simpa using hz)] at hrun
              cases hrun
            · rw [if_neg (by simpa using hz)] at hrun
              by_cases hax : a = x
              · subst hax
                rw [hdxa] at hdx
                cases hdx
                refine ih dmid _ dx2 (List.mem_append_left _ hrest) hdv2 hda ?_ d2 hrun
                intro hc
                rw [hc] at hz
                exact hz rfl
              · refine ih dmid _ dx (List.mem_append_left _ hrest) hdv2 ?_ hne d2 hrun
                rw [hdmid, domGet_domSet_other (fun hzz => hax hzz.symm)]
                exact hdx

/-- Counterexample to C4 as stated: in `cxIso` the single slot's domain is
empty after node consistency, yet `ac3` with the full arc set returns
success, because a slot without neighbors contributes no arc and its empty
domain is never examined. -/
theorem C4_counterexample :
    domGet (enforce_node_consistency (initDomains cxIso)) vIso = .ok [] ∧
    ac3 cxIso (enforce_node_consistency (initDomains cxIso)) none =
      .ok (true, enforce_node_consistency (initDomains cxIso)) :=
  ⟨rfl, rfl⟩

/-- C4 as amended: if after node consistency some slot `v` has an empty
domain and `v` is a neighbor of a slot `x` whose domain is nonempty, then
`ac3` on the full arc set does not return success.  (The unamended claim
fails when the empty-domain slot has no neighbor with a nonempty domain, as
`C4_counterexample` shows.) -/
theorem C4_amended_ac3_empty_domain {c : Crossword} {x v : Var} {dx : List Word}
    (hx : x ∈ c.vars) (hv : v ∈ c.neighbors x)
    (hdv : domGet (enforce_node_consistency (initDomains c)) v = .ok [])
    (hdx : domGet (enforce_node_consistency (initDomains c)) x = .ok dx)
    (hne : dx ≠ []) :
    ∀ d2, ac3 c (enforce_node_consistency (initDomains c)) none ≠ .ok (true, d2) := by
  intro d2
  obtain ⟨hvv, hvx, e, hov⟩ := mem_neighbors.mp hv
  obtain ⟨i, j⟩ := e
  exact ac3Go_empty_nbr_aux hov _ _ _ dx
    (mem_fullArcs.mpr ⟨hx, hv⟩) hdv hdx hne d2

/-- Witness for the amended C4: a length-2 slot crossing a length-3 slot
whose domain empties under node consistency. -/
theorem C4_witness :
    ac3 cxEmptyNbr (enforce_node_consistency (initDomains cxEmptyNbr)) none ≠
      .ok (true, enforce_node_consistency (initDomains cxEmptyNbr)) :=
  C4_amended_ac3_empty_domain (c := cxEmptyNbr) (x := va) (v := vd3)
    (by decide) (by decide) rfl rfl (by decide)
    (enforce_node_consistency (initDomains cxEmptyNbr))

theorem ac3Go_succ {c : Crossword} :
    ∀ {n : Nat} {d : Domains} {q : List (Var × Var)},
      ac3Go c n d q ≠ .error .outOfFuel →
      ac3Go c (n + 1) d q = ac3Go c n d q := by
  intro n
  induction n with
  | zero => intro d q h; exact absurd rfl h
  | succ n ih =>
    intro d q h
    cases q with
    | nil => rfl
    | cons p rest =>
      obtain ⟨a, b⟩ := p
      cases hrev : reviseG c d a b with
      | error e => rw [ac3Go_cons_err hrev, ac3Go_cons_err hrev]
      | ok pr =>
        obtain ⟨revised, dmid⟩ := pr
        cases revised with
        | false =>
          rw [ac3Go_cons_false hrev] at h ⊢
          rw [ac3Go_cons_false hrev, ih h]
        | true =>
          cases hdom : domGet dmid a with
          | error e => rw [ac3Go_cons_true_err hrev hdom, ac3Go_cons_true_err hrev hdom]
          | ok dxa =>
            rw [ac3Go_cons_true hrev hdom] at h
            rw [ac3Go_cons_true (n := n + 1) hrev hdom,
              ac3Go_cons_true (n := n) hrev hdom]
            by_cases hz : (dxa.length == 0) = true
            · rw [if_pos hz, if_pos hz]
            · rw [if_neg hz, if_neg hz]
              rw [if_neg hz] at h
              exact ih h

theorem ac3Go_mono {c : Crossword} {n : Nat} {d : Domains} {q : List (Var × Var)}
    (h : ac3Go c n d q ≠ .error .outOfFuel) :
    ∀ m, n ≤ m → ac3Go c m d q = ac3Go c n d q := by
  intro m hm
  obtain ⟨k, rfl⟩ := Nat.exists_eq_add_of_le hm
  clear hm
  induction k with
  | zero => rfl
  | succ k ih =>
    have hk : ac3Go c (n + k) d q = ac3Go c n d q := ih
    have h2 : ac3Go c (n + k) d q ≠ .error .outOfFuel := by rw [hk]; exact h
    calc ac3Go c (n + (k + 1)) d q = ac3Go c ((n + k) + 1) d q := rfl
      _ = ac3Go c (n + k) d q := ac3Go_succ h2
      _ = ac3Go c n d q := hk

theorem ac3Go_bound {c : Crossword} :
    ∀ (n : Nat) (d : Domains) (q : List (Var × Var)),
      totalSize d * (c.vars.length + 1) + q.length < n →
      ac3Go c n d q ≠ .error .outOfFuel := by
  intro n
  induction n with
  | zero => intro d q h; exact absurd h (Nat.not_lt_zero _)
  | succ n ih =>
    intro d q h
    cases q with
    | nil => simp [ac3Go]
    | cons p rest =>
      obtain ⟨a, b⟩ := p
      cases hrev : reviseG c d a b with
      | error e =>
        rw [ac3Go_cons_err hrev]
        intro hc
        injection hc with he
        apply reviseG_ne_outOfFuel (c := c) (d := d) (x := a) (y := b)
        rw [hrev, he]
      | ok pr =>
        obtain ⟨revised, dmid⟩ := pr
        cases revised with
        | false =>
          rw [ac3Go_cons_false hrev]
          have hd : dmid = d := reviseG_ok_false hrev
          subst hd
          apply ih
          simp only [List.length_cons] at h
          generalize totalSize dmid * (c.vars.length + 1) = P at h ⊢
          omega
        | true =>
          cases hdom : domGet dmid a with
          | error e =>
            rw [ac3Go_cons_true_err hrev hdom]
            intro hc
            injection hc with he
            rw [domGet_error hdom] at he
            cases he
          | ok dxa =>
            rw [ac3Go_cons_true hrev hdom]
            by_cases hz : (dxa.length == 0) = true
            · rw [if_pos hz]
              simp
            · rw [if_neg hz]
              apply ih
              have hS : totalSize dmid < totalSize d := (reviseG_ok_size hrev).2 rfl
              have hmul : (totalSize dmid + 1) * (c.vars.length + 1) ≤
                  totalSize d * (c.vars.length + 1) :=
                Nat.mul_le_mul_right _ hS
              rw [Nat.succ_mul] at hmul
              have happ : (((c.neighbors a).filter (fun z => !(z == b))).map
                  (fun z => (z, a))).length ≤ c.vars.length := by
                rw [List.length_map]
                exact le_trans (List.length_filter_le _ _)
                  (List.length_filter_le _ _)
              rw [List.length_append]
              simp only [List.length_cons] at h
              generalize totalSize dmid * (c.vars.length + 1) = P at hmul ⊢
              generalize totalSize d * (c.vars.length + 1) = Q at hmul h
              generalize (((c.neighbors a).filter (fun z => !(z == b))).map
                (fun z => (z, a))).length = A at happ ⊢
              omega

/-- C9: the AC-3 worklist loop terminates on every input: for every puzzle
structure, domain map and initial arc queue (the default full set or a
caller-supplied one) there is a fuel value at which the loop completes —
`ac3` runs at such a fuel — and all larger fuels give the same outcome. -/
theorem C9_ac3_terminates (c : Crossword) (d : Domains)
    (arcs : Option (List (Var × Var))) :
    ∃ n, ac3 c d arcs = ac3Go c n d (ac3Queue c arcs) ∧
      ac3Go c n d (ac3Queue c arcs) ≠ .error .outOfFuel ∧
      ∀ m, n ≤ m → ac3Go c m d (ac3Queue c arcs) = ac3Go c n d (ac3Queue c arcs) := by
  refine ⟨ac3Bound c d (ac3Queue c arcs), rfl, ?_, ?_⟩
  · exact ac3Go_bound _ _ _ (by simp [ac3Bound])
  · exact ac3Go_mono (ac3Go_bound _ _ _ (by simp [ac3Bound]))

/-- Witness for C9 at a concrete puzzle, domain map and the default queue. -/
theorem C9_witness :
    ∃ n, ac3 cxPair (initDomains cxPair) none =
        ac3Go cxPair n (initDomains cxPair) (ac3Queue cxPair none) ∧
      ac3Go cxPair n (initDomains cxPair) (ac3Queue cxPair none) ≠ .error .outOfFuel ∧
      ∀ m, n ≤ m →
        ac3Go cxPair m (initDomains cxPair) (ac3Queue cxPair none) =
          ac3Go cxPair n (initDomains cxPair) (ac3Queue cxPair none) :=
  C9_ac3_terminates cxPair (initDomains cxPair) none

theorem domSet_cons_eq {q : Var × List Word} {x : Var} (hq : q.1 = x)
    (rest : Domains) (ws : List Word) :
    domSet (q :: rest) x ws = (x, ws) :: rest := by
  simp [domSet, hq]

theorem domSet_cons_ne {q : Var × List Word} {x : Var} (hq : q.1 ≠ x)
    (rest : Domains) (ws : List Word) :
    domSet (q :: rest) x ws = q :: domSet rest x ws := by
  simp [domSet, hq]

theorem subWords_domSet {c : Crossword} {d : Domains} {x : Var} {ws : List Word}
    (hd : subWords c d) (hws : ∀ w ∈ ws, w ∈ c.words) :
    subWords c (domSet d x ws) := by
  induction d with
  | nil =>
    intro p hp w hw
    simp only [domSet, List.mem_singleton] at hp
    subst hp
    exact hws w hw
  | cons q rest ih =>
    by_cases hq : q.1 = x
    · intro p hp w hw
      rw [domSet_cons_eq hq] at hp
      rcases List.mem_cons.mp hp with rfl | hp
      · exact hws w hw
      · exact hd p (List.mem_cons_of_mem _ hp) w hw
    · intro p hp w hw
      rw [domSet_cons_ne hq] at hp
      rcases List.mem_cons.mp hp with rfl | hp
      · exact hd p (List.mem_cons_self _ _) w hw
      · exact ih (fun r hr => hd r (List.mem_cons_of_mem _ hr)) p hp w hw

theorem reviseG_subWords {c : Crossword} {d d2 : Domains} {x y : Var} {r : Bool}
    (hd : subWords c d) (h : reviseG c d x y = .ok (r, d2)) : subWords c d2 := by
  cases r with
  | false => rw [reviseG_ok_false h]; exact hd
  | true =>
    obtain ⟨i, j, dx, dy, dx2, _, hdx, _, hrf, _, hd2⟩ := reviseG_ok_true h
    subst hd2
    refine subWords_domSet hd ?_
    intro w hw
    exact hd (x, dx) (domGet_ok_mem hdx) w ((reviseFilter_sublist hrf).mem hw)

theorem ac3Go_subWords {c : Crossword} :
    ∀ {n : Nat} {d : Domains} {q : List (Var × Var)} {b : Bool} {d2 : Domains},
      subWords c d → ac3Go c n d q = .ok (b, d2) → subWords c d2 := by
  intro n
  induction n with
  | zero => intro d q b d2 _ h; cases h
  | succ n ih =>
    intro d q b d2 hd h
    cases q with
    | nil =>
      simp only [ac3Go] at h
      have h2 : ((true : Bool), d) = (b, d2) := by simpa using h
      injection h2 with h3 h4
      subst h4
      exact hd
    | cons p rest =>
      obtain ⟨a, bb⟩ := p
      cases hrev : reviseG c d a bb with
      | error e => rw [ac3Go_cons_err hrev] at h; cases h
      | ok pr =>
        obtain ⟨revised, dmid⟩ := pr
        have hdmid : subWords c dmid := reviseG_subWords hd hrev
        cases revised with
        | false =>
          rw [ac3Go_cons_false hrev] at h
          exact ih hdmid h
        | true =>
          cases hdom : domGet dmid a with
          | error e => rw [ac3Go_cons_true_err hrev hdom] at h; cases h
          | ok dxa =>
            rw [ac3Go_cons_true hrev hdom] at h
            by_cases hz : (dxa.length == 0) = true
            · rw [if_pos hz] at h
              have h2 : ((false : Bool), dmid) = (b, d2) := by simpa using h
              injection h2 with h3 h4
              subst h4
              exact hdmid
            · rw [if_neg hz] at h
              exact ih hdmid h

theorem ac3_subWords {c : Crossword} {d : Domains}
    {arcs : Option (List (Var × Var))} {b : Bool} {d2 : Domains}
    (hd : subWords c d) (h : ac3 c d arcs = .ok (b, d2)) : subWords c d2 :=
  ac3Go_subWords hd h

theorem insertSorted_mem {p q : Word × Nat} {l : List (Word × Nat)} :
    q ∈ insertSorted p l ↔ q = p ∨ q ∈ l := by
  induction l with
  | nil => simp [insertSorted]
  | cons r rest ih =>
    simp only [insertSorted]
    by_cases hc : r.2 ≤ p.2
    · rw [if_pos hc]
      simp only [List.mem_cons, ih]
      tauto
    · rw [if_neg hc]
      simp only [List.mem_cons]

theorem sortPairs_mem {q : Word × Nat} {l : List (Word × Nat)} :
    q ∈ sortPairs l ↔ q ∈ l := by
  have haux : ∀ (l acc : List (Word × Nat)),
      q ∈ l.foldl (fun acc2 p => insertSorted p acc2) acc ↔ q ∈ acc ∨ q ∈ l := by
    intro l
    induction l with
    | nil => intro acc; simp
    | cons p rest ih =>
      intro acc
      simp only [List.foldl_cons, ih, insertSorted_mem, List.mem_cons]
      tauto
  simpa using haux l []

theorem decorate_ok_map_fst {c : Crossword} {d : Domains} {a : Assignment}
    {var : Var} :
    ∀ {l : List Word} {pairs : List (Word × Nat)},
      decorate c d a var l = .ok pairs → pairs.map Prod.fst = l := by
  intro l
  induction l with
  | nil => intro pairs h; cases h; rfl
  | cons w rest ih =>
    intro pairs h
    simp only [decorate] at h
    cases hk : conflictsKey c d a var w with
    | error e => rw [hk] at h; cases h
    | ok k =>
      rw [hk] at h
      cases hdec : decorate c d a var rest with
      | error e => rw [hdec] at h; cases h
      | ok tail =>
        rw [hdec] at h
        cases h
        simp [ih hdec]

theorem order_domain_values_mem {c : Crossword} {d : Domains} {a : Assignment}
    {var : Var} {vals : List Word}
    (h : order_domain_values c d a var = .ok vals) :
    ∀ w ∈ vals, ∃ dvar, domGet d var = .ok dvar ∧ w ∈ dvar := by
  intro w hw
  simp only [order_domain_values] at h
  cases hdv : domGet d var with
  | error e => rw [hdv] at h; cases h
  | ok dvar =>
    simp only [hdv] at h
    cases hdec : decorate c d a var dvar with
    | error e => rw [hdec] at h; cases h
    | ok pairs =>
      rw [hdec] at h
      have h2 : (sortPairs pairs).map Prod.fst = vals := by
        simpa using h
      rw [← h2] at hw
      obtain ⟨p, hp, rfl⟩ := List.mem_map.mp hw
      refine ⟨dvar, rfl, ?_⟩
      rw [← decorate_ok_map_fst hdec]
      exact List.mem_map.mpr ⟨p, sortPairs_mem.mp hp, rfl⟩

theorem tryValues_subWords {c : Crossword}
    {recur : Domains → Assignment → Except Err (Option Assignment × Domains)}
    (hrec : ∀ {dr : Domains} {ar : Assignment} {rr : Option Assignment} {dr2 : Domains},
      subWords c dr → recur dr ar = .ok (rr, dr2) → subWords c dr2) :
    ∀ {vals : List Word} {d d2 : Domains} {a : Assignment} {var : Var}
      {r : Option Assignment},
      subWords c d → (∀ w ∈ vals, w ∈ c.words) →
      tryValues c recur d a var vals = .ok (r, d2) → subWords c d2 := by
  intro vals
  induction vals with
  | nil =>
    intro d d2 a var r hd _ h
    simp only [tryValues] at h
    have h2 : ((none : Option Assignment), d) = (r, d2) := by simpa using h
    injection h2 with h3 h4
    subst h4
    exact hd
  | cons value rest ih =>
    intro d d2 a var r hd hvals h
    simp only [tryValues] at h
    cases hcon : consistent c (a ++ [(var, value)]) with
    | error e => rw [hcon] at h; cases h
    | ok bc =>
      rw [hcon] at h
      cases bc with
      | false =>
        exact ih hd (fun w hw => hvals w (List.mem_cons_of_mem _ hw)) h
      | true =>
        dsimp only at h
        cases hac : ac3 c (domSet d var [value])
            (some ((c.neighbors var).map (fun n => (n, var)))) with
        | error e => rw [hac] at h; cases h
        | ok pr =>
          rw [hac] at h
          obtain ⟨bb, dmid⟩ := pr
          have hdmid : subWords c dmid := by
            refine ac3_subWords ?_ hac
            exact subWords_domSet hd (by
              intro w hw
              rcases List.mem_singleton.mp hw with rfl
              exact hvals w (List.mem_cons_self _ _))
          cases bb with
          | false =>
            exact ih hd (fun w hw => hvals w (List.mem_cons_of_mem _ hw)) h
          | true =>
            dsimp only at h
            cases hr : recur dmid (a ++ [(var, value)]) with
            | error e => rw [hr] at h; cases h
            | ok q =>
              rw [hr] at h
              obtain ⟨res, d3⟩ := q
              cases res with
              | some result =>
                dsimp only at h
                have h2 : (some result, d3) = (r, d2) := by simpa using h
                injection h2 with h3 h4
                subst h4
                exact hrec hdmid hr
              | none =>
                exact ih hd (fun w hw => hvals w (List.mem_cons_of_mem _ hw)) h

theorem backtrackGo_subWords {c : Crossword} :
    ∀ {fuel : Nat} {d d2 : Domains} {a : Assignment} {r : Option Assignment},
      subWords c d → backtrackGo c fuel d a = .ok (r, d2) → subWords c d2 := by
  intro fuel
  induction fuel with
  | zero => intro d d2 a r _ h; cases h
  | succ n ih =>
    intro d d2 a r hd h
    simp only [backtrackGo] at h
    by_cases hcomp : assignment_complete c a = true
    · rw [if_pos hcomp] at h
      have h2 : (some a, d) = (r, d2) := by simpa using h
      injection h2 with h3 h4
      subst h4
      exact hd
    · rw [if_neg hcomp] at h
      cases hsel : select_unassigned_variable c d a with
      | error e => rw [hsel] at h; cases h
      | ok var =>
        rw [hsel] at h
        dsimp only at h
        cases hord : order_domain_values c d a var with
        | error e => rw [hord] at h; cases h
        | ok values =>
          rw [hord] at h
          dsimp only at h
          refine tryValues_subWords (fun hdr hrr => ih hdr hrr) hd ?_ h
          intro w hw
          obtain ⟨dvar, hdvar, hmem⟩ := order_domain_values_mem hord w hw
          exact hd (var, dvar) (domGet_ok_mem hdvar) w hmem

/-- C8: domains never grow beyond the word list.  Initially every domain is
the word list itself; `enforce_node_consistency`, `revise`, the AC-3 loop,
and `backtrack` (including its forward-checking `domains[var] = {value}`
step and its snapshot restores) all preserve the invariant that every domain
word belongs to the word list. -/
theorem C8_domains_subset_words (c : Crossword) :
    subWords c (initDomains c) ∧
    (∀ d, subWords c d → subWords c (enforce_node_consistency d)) ∧
    (∀ d d2 x y r, subWords c d → reviseG c d x y = .ok (r, d2) →
      subWords c d2) ∧
    (∀ n d q b d2, subWords c d → ac3Go c n d q = .ok (b, d2) →
      subWords c d2) ∧
    (∀ fuel d a r d2, subWords c d → backtrackGo c fuel d a = .ok (r, d2) →
      subWords c d2) := by
  refine ⟨?_, ?_, ?_, ?_, ?_⟩
  · intro p hp w hw
    simp only [initDomains, List.mem_map] at hp
    obtain ⟨v, hv, rfl⟩ := hp
    exact hw
  · intro d hd p hp w hw
    simp only [enforce_node_consistency, List.mem_map] at hp
    obtain ⟨q, hq, rfl⟩ := hp
    exact hd q hq w (List.mem_of_mem_filter hw)
  · intro d d2 x y r hd h
    exact reviseG_subWords hd h
  · intro n d q b d2 hd h
    exact ac3Go_subWords hd h
  · intro fuel d a r d2 hd h
    exact backtrackGo_subWords hd h

/-- Witness for C8: the concrete puzzle `cxPair` with a revise step. -/
theorem C8_witness :
    subWords cxPair (initDomains cxPair) ∧
    subWords cxPair (enforce_node_consistency (initDomains cxPair)) :=
  ⟨(C8_domains_subset_words cxPair).1,
    (C8_domains_subset_words cxPair).2.1 (initDomains cxPair)
      (C8_domains_subset_words cxPair).1⟩

theorem ac3GoC_cons_err {c : Crossword} {n : Nat} {d : Domains} {a b : Var}
    {rest : List (Var × Var)} {e : Err}
    (hrev : reviseC c d a b = .error e) :
    ac3GoC c (n + 1) d ((a, b) :: rest) = .error e := by
  simp [ac3GoC, hrev]

theorem ac3GoC_cons_false {c : Crossword} {n : Nat} {d dmid : Domains}
    {a b : Var} {rest : List (Var × Var)}
    (hrev : reviseC c d a b = .ok (false, dmid)) :
    ac3GoC c (n + 1) d ((a, b) :: rest) = ac3GoC c n dmid rest := by
  simp [ac3GoC, hrev]

theorem ac3GoC_cons_true {c : Crossword} {n : Nat} {d dmid : Domains}
    {a b : Var} {rest : List (Var × Var)} {dxa : List Word}
    (hrev : reviseC c d a b = .ok (true, dmid))
    (hdom : domGet dmid a = .ok dxa) :
    ac3GoC c (n + 1) d ((a, b) :: rest) =
      if dxa.length == 0 then .ok (false, dmid)
      else ac3GoC c n dmid
        (rest ++ ((c.neighbors a).filter (fun z => !(z == b))).map (fun z => (z, a))) := by
  simp only [ac3GoC, hrev, hdom, eq_self_iff_true, if_true]

theorem ac3GoC_cons_true_err {c : Crossword} {n : Nat} {d dmid : Domains}
    {a b : Var} {rest : List (Var × Var)} {e : Err}
    (hrev : reviseC c d a b = .ok (true, dmid))
    (hdom : domGet dmid a = .error e) :
    ac3GoC c (n + 1) d ((a, b) :: rest) = .error e := by
  simp [ac3GoC, hrev, hdom]

theorem overlapsTotal_spec {c : Crossword} (h : overlapsTotal c = true)
    {x y : Var} (hx : x ∈ c.vars) (hy : y ∈ c.vars) (hxy : x ≠ y) :
    ∃ e, overlapGet c x y = some e := by
  simp only [overlapsTotal, List.all_eq_true] at h
  have h2 := h x hx y hy
  rw [show (x == y) = false by simpa using hxy] at h2
  simp only [Bool.false_or, Option.isSome_iff_exists] at h2
  exact h2

theorem reviseCG_eq {c : Crossword} (h : overlapsTotal c = true)
    {x y : Var} (hx : x ∈ c.vars) (hy : y ∈ c.vars) (hxy : x ≠ y)
    (d : Domains) : reviseC c d x y = reviseG c d x y := by
  obtain ⟨e, he⟩ := overlapsTotal_spec h hx hy hxy
  simp only [reviseC, reviseG, overlapIdx, he, Option.getD_some]
  cases e with
  | none => rfl
  | some pr =>
    obtain ⟨i, j⟩ := pr
    rfl

theorem ac3GoCG_eq {c : Crossword} (h : overlapsTotal c = true) :
    ∀ (n : Nat) (d : Domains) (q : List (Var × Var)), arcsDistinct c q →
      ac3GoC c n d q = ac3Go c n d q := by
  intro n
  induction n with
  | zero => intro d q _; rfl
  | succ n ih =>
    intro d q hq
    cases q with
    | nil => rfl
    | cons p rest =>
      obtain ⟨a, b⟩ := p
      obtain ⟨ha, hb, hab⟩ := hq (a, b) (List.mem_cons_self _ _)
      have hrest : arcsDistinct c rest :=
        fun p hp => hq p (List.mem_cons_of_mem _ hp)
      have hreq := reviseCG_eq h ha hb hab d
      cases hrev : reviseG c d a b with
      | error e =>
        rw [ac3GoC_cons_err (hreq.trans hrev), ac3Go_cons_err hrev]
      | ok pr =>
        obtain ⟨revised, dmid⟩ := pr
        cases revised with
        | false =>
          rw [ac3GoC_cons_false (hreq.trans hrev), ac3Go_cons_false hrev]
          exact ih dmid rest hrest
        | true =>
          cases hdom : domGet dmid a with
          | error e =>
            rw [ac3GoC_cons_true_err (hreq.trans hrev) hdom,
              ac3Go_cons_true_err hrev hdom]
          | ok dxa =>
            rw [ac3GoC_cons_true (hreq.trans hrev) hdom,
              ac3Go_cons_true hrev hdom]
            by_cases hz : (dxa.length == 0) = true
            · rw [if_pos hz, if_pos hz]
            · rw [if_neg hz, if_neg hz]
              refine ih dmid _ ?_
              intro p hp
              rcases List.mem_append.mp hp with hp | hp
              · exact hrest p hp
              · obtain ⟨z, hz2, rfl⟩ := List.mem_map.mp hp
                have hz3 := List.mem_of_mem_filter hz2
                obtain ⟨hzv, hza, _⟩ := mem_neighbors.mp hz3
                exact ⟨hzv, ha, hza⟩

theorem filterBySize_subset {d : Domains} {m : Nat} :
    ∀ {us mrv : List Var}, filterBySize d m us = .ok mrv → ∀ u ∈ mrv, u ∈ us := by
  intro us
  induction us with
  | nil => intro mrv h u hu; cases h; cases hu
  | cons v rest ih =>
    intro mrv h u hu
    simp only [filterBySize] at h
    cases hdv : domGet d v with
    | error e => rw [hdv] at h; cases h
    | ok ws =>
      rw [hdv] at h
      cases hrec : filterBySize d m rest with
      | error e => rw [hrec] at h; cases h
      | ok tail =>
        rw [hrec] at h
        cases h
        by_cases hlen : (ws.length == m) = true
        · rw [if_pos hlen] at hu
          rcases List.mem_cons.mp hu with rfl | hu
          · exact List.mem_cons_self _ _
          · exact List.mem_cons_of_mem _ (ih hrec u hu)
        · rw [if_neg hlen] at hu
          exact List.mem_cons_of_mem _ (ih hrec u hu)

theorem maxByDegreeFirst_mem (c : Crossword) :
    ∀ (vs : List Var) (v : Var), maxByDegreeFirst c v vs = v ∨ maxByDegreeFirst c v vs ∈ vs := by
  intro vs
  induction vs with
  | nil => intro v; exact Or.inl rfl
  | cons y ys ih =>
    intro v
    by_cases hc : (c.neighbors v).length < (c.neighbors y).length
    · have hstep : maxByDegreeFirst c v (y :: ys) = maxByDegreeFirst c y ys := by
        simp only [maxByDegreeFirst, List.foldl_cons, if_pos hc]
      rw [hstep]
      rcases ih y with he | he
      · exact Or.inr (by rw [he]; exact List.mem_cons_self _ _)
      · exact Or.inr (List.mem_cons_of_mem _ he)
    · have hstep : maxByDegreeFirst c v (y :: ys) = maxByDegreeFirst c v ys := by
        simp only [maxByDegreeFirst, List.foldl_cons, if_neg hc]
      rw [hstep]
      rcases ih v with he | he
      · exact Or.inl he
      · exact Or.inr (List.mem_cons_of_mem _ he)

theorem select_ok_unassigned {c : Crossword} {d : Domains} {a : Assignment}
    {var : Var} (h : select_unassigned_variable c d a = .ok var) :
    var ∈ c.vars ∧ hasKey a var = false := by
  simp only [select_unassigned_variable] at h
  cases hsz : domSizes d (c.vars.filter (fun v => !(hasKey a v))) with
  | error e => rw [hsz] at h; cases h
  | ok sizes =>
    simp only [hsz] at h
    cases hmin : minNat sizes with
    | none => rw [hmin] at h; cases h
    | some m =>
      simp only [hmin] at h
      cases hfil : filterBySize d m (c.vars.filter (fun v => !(hasKey a v))) with
      | error e => rw [hfil] at h; cases h
      | ok mrv =>
        simp only [hfil] at h
        cases mrv with
        | nil => cases h
        | cons v vs =>
          have h3 : (if (vs.length == 0) = true then Except.ok v
              else Except.ok (maxByDegreeFirst c v vs) : Except Err Var) =
              Except.ok var := h
          have hsel : var ∈ v :: vs := by
            by_cases hvs : (vs.length == 0) = true
            · rw [if_pos hvs] at h3
              have h2 : v = var := by simpa using h3
              rw [← h2]
              exact List.mem_cons_self _ _
            · rw [if_neg hvs] at h3
              have h2 : maxByDegreeFirst c v vs = var := by simpa using h3
              rcases maxByDegreeFirst_mem c vs v with he | he
              · rw [← h2, he]; exact List.mem_cons_self _ _
              · rw [← h2]; exact List.mem_cons_of_mem _ he
          have hmem := filterBySize_subset hfil var hsel
          have := List.mem_filter.mp hmem
          exact ⟨this.1, by simpa using this.2⟩

theorem tryValuesCG_eq {c : Crossword} (h : overlapsTotal c = true)
    {recurC recurG : Domains → Assignment → Except Err (Option Assignment × Domains)}
    (hrec : ∀ dr ar, recurC dr ar = recurG dr ar) :
    ∀ (vals : List Word) (d : Domains) (a : Assignment) (var : Var),
      var ∈ c.vars →
      tryValuesC c recurC d a var vals = tryValues c recurG d a var vals := by
  intro vals
  induction vals with
  | nil => intro d a var _; rfl
  | cons value rest ih =>
    intro d a var hvar
    simp only [tryValuesC, tryValues]
    cases hcon : consistent c (a ++ [(var, value)]) with
    | error e => rfl
    | ok bc =>
      cases bc with
      | false => exact ih d a var hvar
      | true =>
        dsimp only
        have harcs : arcsDistinct c ((c.neighbors var).map (fun n => (n, var))) := by
          intro p hp
          obtain ⟨z, hz, rfl⟩ := List.mem_map.mp hp
          obtain ⟨hzv, hza, _⟩ := mem_neighbors.mp hz
          exact ⟨hzv, hvar, hza⟩
        have hacs : ac3C c (domSet d var [value])
            (some ((c.neighbors var).map (fun n => (n, var)))) =
            ac3 c (domSet d var [value])
            (some ((c.neighbors var).map (fun n => (n, var)))) :=
          ac3GoCG_eq h _ _ _ harcs
        rw [hacs]
        cases hac : ac3 c (domSet d var [value])
            (some ((c.neighbors var).map (fun n => (n, var)))) with
        | error e => rfl
        | ok pr =>
          obtain ⟨bb, dmid⟩ := pr
          cases bb with
          | false => exact ih d a var hvar
          | true =>
            dsimp only
            rw [hrec dmid (a ++ [(var, value)])]
            cases hr : recurG dmid (a ++ [(var, value)]) with
            | error e => rfl
            | ok q =>
              obtain ⟨res, d3⟩ := q
              cases res with
              | some result => rfl
              | none => exact ih d a var hvar

theorem backtrackGoCG_eq {c : Crossword} (h : overlapsTotal c = true) :
    ∀ (fuel : Nat) (d : Domains) (a : Assignment),
      backtrackGoC c fuel d a = backtrackGo c fuel d a := by
  intro fuel
  induction fuel with
  | zero => intro d a; rfl
  | succ n ih =>
    intro d a
    simp only [backtrackGoC, backtrackGo]
    by_cases hcomp : assignment_complete c a = true
    · rw [if_pos hcomp, if_pos hcomp]
    · rw [if_neg hcomp, if_neg hcomp]
      cases hsel : select_unassigned_variable c d a with
      | error e => rfl
      | ok var =>
        dsimp only
        cases hord : order_domain_values c d a var with
        | error e => rfl
        | ok values =>
          dsimp only
          exact tryValuesCG_eq h (fun dr ar => ih dr ar) values d a var
            (select_ok_unassigned hsel).1

/-- Counterexample to C10 as stated: with the precondition satisfied (an
overlap entry for every ordered pair of distinct slots — vacuously, `cxIso`
has one slot), the two `revise` implementations already disagree on the
self-pair `(vIso, vIso)`: `generate.py`'s direct indexing raises `KeyError`
while `crossword.py`'s `.get` treats the missing entry as "no overlap" and
returns `false`. -/
theorem C10_counterexample :
    overlapsTotal cxIso = true ∧
    reviseG cxIso (initDomains cxIso) vIso vIso = .error .keyError ∧
    reviseC cxIso (initDomains cxIso) vIso vIso = .ok (false, initDomains cxIso) ∧
    reviseG cxIso (initDomains cxIso) vIso vIso ≠
      reviseC cxIso (initDomains cxIso) vIso vIso :=
  ⟨rfl, rfl, rfl, fun hc => Except.noConfusion hc⟩

/-- C10 as amended: under the precondition (an overlap entry for every
ordered pair of distinct slots), the two engines coincide on
`enforce_node_consistency` (unconditionally), on `revise` applied to
distinct slots, on the AC-3 loop over queues of distinct slot pairs (in
particular the default full queue), on `backtrack`, and on `solve`.  The
restriction to distinct pairs is forced by `C10_counterexample`. -/
theorem C10_amended_equivalence {c : Crossword} (h : overlapsTotal c = true) :
    (∀ d, enforceNodeConsistencyC d = enforce_node_consistency d) ∧
    (∀ d x y, x ∈ c.vars → y ∈ c.vars → x ≠ y →
      reviseC c d x y = reviseG c d x y) ∧
    (∀ n d q, arcsDistinct c q → ac3GoC c n d q = ac3Go c n d q) ∧
    (∀ d arcs, arcsDistinct c (ac3Queue c arcs) → ac3C c d arcs = ac3 c d arcs) ∧
    (∀ fuel d a, backtrackGoC c fuel d a = backtrackGo c fuel d a) ∧
    solveC c = solveG c := by
  have hfull : arcsDistinct c (fullArcs c) := by
    intro p hp
    obtain ⟨x, y⟩ := p
    obtain ⟨hx, hy⟩ := mem_fullArcs.mp hp
    obtain ⟨hyv, hyx, _⟩ := mem_neighbors.mp hy
    exact ⟨hx, hyv, fun he => hyx he.symm⟩
  refine ⟨fun d => rfl, fun d x y hx hy hxy => reviseCG_eq h hx hy hxy d,
    fun n d q hq => ac3GoCG_eq h n d q hq,
    fun d arcs hq => ac3GoCG_eq h _ _ _ hq,
    backtrackGoCG_eq h, ?_⟩
  simp only [solveC, solveG]
  rw [show enforceNodeConsistencyC (initDomains c) =
    enforce_node_consistency (initDomains c) from rfl]
  rw [show ac3C c (enforce_node_consistency (initDomains c)) none =
    ac3 c (enforce_node_consistency (initDomains c)) none from
    ac3GoCG_eq h _ _ _ hfull]
  cases hac : ac3 c (enforce_node_consistency (initDomains c)) none with
  | error e => rfl
  | ok pr =>
    obtain ⟨b, d2⟩ := pr
    dsimp only
    rw [backtrackGoCG_eq h]

/-- Witness for the amended C10 at the concrete solvable puzzle `cxPair`. -/
theorem C10_witness :
    overlapsTotal cxPair = true ∧ solveC cxPair = solveG cxPair :=
  ⟨rfl, (C10_amended_equivalence (c := cxPair) rfl).2.2.2.2.2⟩

theorem eraseDupsLoop_length_le {α : Type} [BEq α] :
    ∀ (as bs : List α), (List.eraseDups.loop as bs).length ≤ bs.length + as.length := by
  intro as
  induction as with
  | nil =>
    intro bs
    simp [List.eraseDups.loop]
  | cons a as ih =>
    intro bs
    simp only [List.eraseDups.loop]
    cases he : bs.elem a with
    | true =>
      have := ih bs
      simp only [List.length_cons]
      omega
    | false =>
      have := ih (a :: bs)
      simp only [List.length_cons] at this ⊢
      omega

theorem eraseDupsLoop_length_lt_of_elem {α : Type} [BEq α] [LawfulBEq α] :
    ∀ (as bs : List α) (x : α), x ∈ as → x ∈ bs →
      (List.eraseDups.loop as bs).length < bs.length + as.length := by
  intro as
  induction as with
  | nil => intro bs x hx _; cases hx
  | cons a as ih =>
    intro bs x hx hxb
    simp only [List.eraseDups.loop]
    cases he : bs.elem a with
    | true =>
      have := eraseDupsLoop_length_le as bs
      simp only [List.length_cons]
      omega
    | false =>
      rcases List.mem_cons.mp hx with rfl | hx
      · simp only [List.elem_eq_mem, decide_eq_false_iff_not] at he
        exact absurd hxb he
      · have := ih (a :: bs) x hx (List.mem_cons_of_mem _ hxb)
        simp only [List.length_cons] at this ⊢
        omega

theorem eraseDupsLoop_length_lt_of_not_nodup {α : Type} [BEq α] [LawfulBEq α] :
    ∀ (as bs : List α), ¬ as.Nodup →
      (List.eraseDups.loop as bs).length < bs.length + as.length := by
  intro as
  induction as with
  | nil => intro bs h; exact absurd List.nodup_nil h
  | cons a as ih =>
    intro bs h
    rw [List.nodup_cons] at h
    simp only [List.eraseDups.loop]
    cases he : bs.elem a with
    | true =>
      have := eraseDupsLoop_length_le as bs
      simp only [List.length_cons]
      omega
    | false =>
      by_cases hmem : a ∈ as
      · have := eraseDupsLoop_length_lt_of_elem as (a :: bs) a hmem
          (List.mem_cons_self _ _)
        simp only [List.length_cons] at this ⊢
        omega
      · have hnd : ¬ as.Nodup := by tauto
        have := ih (a :: bs) hnd
        simp only [List.length_cons] at this ⊢
        omega

theorem nodup_of_eraseDups_length {α : Type} [BEq α] [LawfulBEq α] {l : List α}
    (h : l.eraseDups.length = l.length) : l.Nodup := by
  by_contra hnd
  have := eraseDupsLoop_length_lt_of_not_nodup l [] hnd
  simp only [List.length_nil, Nat.zero_add] at this
  rw [show l.eraseDups = List.eraseDups.loop l [] from rfl] at h
  omega

theorem distinctValues_nodup {a : Assignment}
    (h : distinctValues a = true) : (a.map Prod.snd).Nodup := by
  simp only [distinctValues, beq_iff_eq] at h
  exact nodup_of_eraseDups_length h

theorem consistentNbrs_ok_true {c : Crossword} {a : Assignment} {var : Var}
    {word : Word} :
    ∀ {nbrs : List Var}, consistentNbrs c a var word nbrs = .ok true →
      ∀ n ∈ nbrs, hasKey a n = true →
        ∀ e, overlapGet c var n = some e →
          e = none ∨ ∃ i j u ch, e = some (i, j) ∧ assignGet a n = .ok u ∧
            word[i]? = some ch ∧ u[j]? = some ch := by
  intro nbrs
  induction nbrs with
  | nil => intro _ n hn; cases hn
  | cons m rest ih =>
    intro h n hn hk e he
    simp only [consistentNbrs] at h
    rcases List.mem_cons.mp hn with rfl | hn2
    · rw [if_pos hk] at h
      have hoidx : overlapIdx c var n = .ok e := by
        simp [overlapIdx, he]
      rw [hoidx] at h
      cases e with
      | none => exact Or.inl rfl
      | some pr =>
        obtain ⟨i, j⟩ := pr
        dsimp only at h
        cases hc1 : charAt word i with
        | error er => simp only [hc1] at h; cases h
        | ok ch1 =>
          simp only [hc1] at h
          cases hu : assignGet a n with
          | error er => simp only [hu] at h; cases h
          | ok u =>
            simp only [hu] at h
            cases hc2 : charAt u j with
            | error er => simp only [hc2] at h; cases h
            | ok ch2 =>
              simp only [hc2] at h
              by_cases hcc : (ch1 == ch2) = true
              · refine Or.inr ⟨i, j, u, ch1, rfl, rfl, charAt_ok hc1, ?_⟩
                rw [charAt_ok hc2]
                have : ch1 = ch2 := by simpa using hcc
                rw [this]
              · rw [if_neg hcc] at h
                cases h
    · by_cases hk2 : hasKey a m = true
      · rw [if_pos hk2] at h
        cases ho : overlapIdx c var m with
        | error er => rw [ho] at h; cases h
        | ok e2 =>
          rw [ho] at h
          cases e2 with
          | none => exact ih h n hn2 hk e he
          | some pr =>
            obtain ⟨i, j⟩ := pr
            dsimp only at h
            cases hc1 : charAt word i with
            | error er => simp only [hc1] at h; cases h
            | ok ch1 =>
              simp only [hc1] at h
              cases hu : assignGet a m with
              | error er => simp only [hu] at h; cases h
              | ok u =>
                simp only [hu] at h
                cases hc2 : charAt u j with
                | error er => simp only [hc2] at h; cases h
                | ok ch2 =>
                  simp only [hc2] at h
                  by_cases hcc : (ch1 == ch2) = true
                  · rw [if_pos hcc] at h
                    exact ih h n hn2 hk e he
                  · rw [if_neg hcc] at h
                    cases h
      · rw [if_neg hk2] at h
        exact ih h n hn2 hk e he

theorem consistentItems_ok_true {c : Crossword} {a : Assignment} :
    ∀ {l : List (Var × Word)}, consistentItems c a l = .ok true →
      ∀ p ∈ l, (p.2).length = p.1.length ∧
        consistentNbrs c a p.1 p.2 (c.neighbors p.1) = .ok true := by
  intro l
  induction l with
  | nil => intro _ p hp; cases hp
  | cons q rest ih =>
    intro h p hp
    obtain ⟨var, word⟩ := q
    simp only [consistentItems] at h
    by_cases hlen : (word.length == var.length) = true
    · rw [if_pos hlen] at h
      cases hnb : consistentNbrs c a var word (c.neighbors var) with
      | error er => rw [hnb] at h; cases h
      | ok b =>
        rw [hnb] at h
        cases b with
        | true =>
          rcases List.mem_cons.mp hp with rfl | hp2
          · exact ⟨by simpa using hlen, hnb⟩
          · exact ih h p hp2
        | false => cases h
    · rw [if_neg hlen] at h
      cases h

theorem consistent_ok_true {c : Crossword} {a : Assignment}
    (h : consistent c a = .ok true) :
    distinctValues a = true ∧ consistentItems c a a = .ok true := by
  simp only [consistent] at h
  by_cases hd : distinctValues a = true
  · rw [if_pos hd] at h
    exact ⟨hd, h⟩
  · rw [if_neg hd] at h
    cases h

theorem assignment_complete_covers {c : Crossword} {a : Assignment}
    (h : assignment_complete c a = true) :
    ∀ v ∈ c.vars, hasKey a v = true := by
  intro v hv
  simp only [assignment_complete, setEqVars, Bool.and_eq_true,
    List.all_eq_true] at h
  have := h.1.2 v hv
  rw [hasKey_iff_mem_keys]
  simpa using this

theorem tryValues_sound {c : Crossword}
    {recur : Domains → Assignment → Except Err (Option Assignment × Domains)}
    (hrec : ∀ {dr : Domains} {ar : Assignment} {rr : Assignment} {dr2 : Domains},
      consistent c ar = .ok true → valuesFrom ar c.words → subWords c dr →
      recur dr ar = .ok (some rr, dr2) →
      assignment_complete c rr = true ∧ consistent c rr = .ok true ∧
        valuesFrom rr c.words) :
    ∀ {vals : List Word} {d d2 : Domains} {a : Assignment} {var : Var}
      {r : Assignment},
      valuesFrom a c.words → subWords c d → (∀ w ∈ vals, w ∈ c.words) →
      tryValues c recur d a var vals = .ok (some r, d2) →
      assignment_complete c r = true ∧ consistent c r = .ok true ∧
        valuesFrom r c.words := by
  intro vals
  induction vals with
  | nil =>
    intro d d2 a var r _ _ _ h
    simp only [tryValues] at h
    simp at h
  | cons value rest ih =>
    intro d d2 a var r ha hd hvals h
    simp only [tryValues] at h
    cases hcon : consistent c (a ++ [(var, value)]) with
    | error e => rw [hcon] at h; cases h
    | ok bc =>
      rw [hcon] at h
      cases bc with
      | false =>
        exact ih ha hd (fun w hw => hvals w (List.mem_cons_of_mem _ hw)) h
      | true =>
        dsimp only at h
        cases hac : ac3 c (domSet d var [value])
            (some ((c.neighbors var).map (fun n => (n, var)))) with
        | error e => rw [hac] at h; cases h
        | ok pr =>
          rw [hac] at h
          obtain ⟨bb, dmid⟩ := pr
          cases bb with
          | false =>
            exact ih ha hd (fun w hw => hvals w (List.mem_cons_of_mem _ hw)) h
          | true =>
            dsimp only at h
            have hdmid : subWords c dmid := by
              refine ac3_subWords ?_ hac
              refine subWords_domSet hd ?_
              intro w hw
              rcases List.mem_singleton.mp hw with rfl
              exact hvals w (List.mem_cons_self _ _)
            cases hr : recur dmid (a ++ [(var, value)]) with
            | error e => rw [hr] at h; cases h
            | ok q =>
              rw [hr] at h
              obtain ⟨res, d3⟩ := q
              cases res with
              | some result =>
                dsimp only at h
                have h2 : (some result, d3) =
                    ((some r : Option Assignment), d2) := by simpa using h
                injection h2 with h3 h4
                injection h3 with h3
                subst h3
                refine hrec hcon ?_ hdmid hr
                intro p hp
                rcases List.mem_append.mp hp with hp | hp
                · exact ha p hp
                · rcases List.mem_singleton.mp hp with rfl
                  exact hvals value (List.mem_cons_self _ _)
              | none =>
                exact ih ha hd (fun w hw => hvals w (List.mem_cons_of_mem _ hw)) h

theorem backtrackGo_sound {c : Crossword} :
    ∀ {fuel : Nat} {d d2 : Domains} {a r : Assignment},
      consistent c a = .ok true → valuesFrom a c.words → subWords c d →
      backtrackGo c fuel d a = .ok (some r, d2) →
      assignment_complete c r = true ∧ consistent c r = .ok true ∧
        valuesFrom r c.words := by
  intro fuel
  induction fuel with
  | zero => intro d d2 a r _ _ _ h; cases h
  | succ n ih =>
    intro d d2 a r hcons ha hd h
    simp only [backtrackGo] at h
    by_cases hcomp : assignment_complete c a = true
    · rw [if_pos hcomp] at h
      have h2 : ((some a : Option Assignment), d) = (some r, d2) := by simpa using h
      injection h2 with h3 h4
      injection h3 with h3
      subst h3
      exact ⟨hcomp, hcons, ha⟩
    · rw [if_neg hcomp] at h
      cases hsel : select_unassigned_variable c d a with
      | error e => rw [hsel] at h; cases h
      | ok var =>
        rw [hsel] at h
        dsimp only at h
        cases hord : order_domain_values c d a var with
        | error e => rw [hord] at h; cases h
        | ok values =>
          rw [hord] at h
          dsimp only at h
          refine tryValues_sound
            (fun hc hv hs hr => ih hc hv hs hr) ha hd ?_ h
          intro w hw
          obtain ⟨dvar, hdvar, hmem⟩ := order_domain_values_mem hord w hw
          exact hd (var, dvar) (domGet_ok_mem hdvar) w hmem

/-- C1: any assignment returned by the top-level `solve` covers every slot,
assigns pairwise-distinct words, respects every slot length, and agrees with
every assigned neighbor character-for-character at each recorded overlap. -/
theorem C1_solve_sound {c : Crossword} {a : Assignment}
    (_hwf : wfB c = true) (h : solveG c = .ok (some a)) :
    (∀ v ∈ c.vars, hasKey a v = true) ∧
    (a.map Prod.snd).Nodup ∧
    (∀ p ∈ a, (p.2).length = p.1.length) ∧
    (∀ p ∈ a, ∀ n ∈ c.neighbors p.1, hasKey a n = true →
      ∀ i j, overlapGet c p.1 n = some (some (i, j)) →
        ∃ u ch, assignGet a n = .ok u ∧ (p.2)[i]? = some ch ∧
          u[j]? = some ch) := by
  simp only [solveG] at h
  cases hac : ac3 c (enforce_node_consistency (initDomains c)) none with
  | error e => rw [hac] at h; cases h
  | ok pr =>
    rw [hac] at h
    obtain ⟨b, d2⟩ := pr
    dsimp only at h
    cases hbt : backtrackGo c (c.vars.length + 1) d2 [] with
    | error e => rw [hbt] at h; cases h
    | ok q =>
      rw [hbt] at h
      obtain ⟨res, d3⟩ := q
      dsimp only at h
      have hres : res = some a := by simpa using h
      subst hres
      have hd2 : subWords c d2 := by
        refine ac3_subWords ?_ hac
        intro p hp w hw
        simp only [enforce_node_consistency, initDomains, List.map_map,
          List.mem_map] at hp
        obtain ⟨v, hv, rfl⟩ := hp
        exact List.mem_of_mem_filter hw
      obtain ⟨hcomp, hcons, hvals⟩ :=
        backtrackGo_sound (a := []) rfl (by intro p hp; cases hp) hd2 hbt
      obtain ⟨hdist, hitems⟩ := consistent_ok_true hcons
      refine ⟨assignment_complete_covers hcomp, distinctValues_nodup hdist,
        ?_, ?_⟩
      · intro p hp
        exact (consistentItems_ok_true hitems p hp).1
      · intro p hp n hn hk i j hov
        have hnb := (consistentItems_ok_true hitems p hp).2
        rcases consistentNbrs_ok_true hnb n hn hk (some (i, j)) hov with
          he | ⟨i2, j2, u, ch, he, hu, hwi, huj⟩
        · cases he
        · injection he with he2
          injection he2 with he3 he4
          subst he3
          subst he4
          exact ⟨u, ch, hu, hwi, huj⟩

/-- Witness for C1 at the concrete solvable puzzle `cxPair`, whose solve
result is `aSol`. -/
theorem C1_witness :
    (∀ v ∈ cxPair.vars, hasKey aSol v = true) ∧
    (aSol.map Prod.snd).Nodup ∧
    (∀ p ∈ aSol, (p.2).length = p.1.length) ∧
    (∀ p ∈ aSol, ∀ n ∈ cxPair.neighbors p.1, hasKey aSol n = true →
      ∀ i j, overlapGet cxPair p.1 n = some (some (i, j)) →
        ∃ u ch, assignGet aSol n = .ok u ∧ (p.2)[i]? = some ch ∧
          u[j]? = some ch) :=
  C1_solve_sound (c := cxPair) (a := aSol) rfl rfl

theorem wfB_entry {c : Crossword} (h : wfB c = true) {x y : Var} {i j : Nat}
    (hx : x ∈ c.vars) (hy : y ∈ c.vars)
    (he : overlapGet c x y = some (some (i, j))) :
    i < x.length ∧ j < y.length ∧ overlapGet c y x = some (some (j, i)) ∧ x ≠ y := by
  simp only [wfB, List.all_eq_true, Bool.and_eq_true] at h
  have hxy : x ≠ y := by
    rintro rfl
    have hself := (h x hx).1
    simp only [selfOk, he] at hself
    exact Bool.noConfusion hself
  have h2 := (h x hx).2 y hy
  rw [show (x == y) = false by simpa using hxy] at h2
  simp only [Bool.false_or, entryOk, he, Bool.and_eq_true, decide_eq_true_eq,
    beq_iff_eq] at h2
  exact ⟨h2.1.1, h2.1.2, h2.2, hxy⟩

theorem arcCons_mono {d d2 : Domains} {x y : Var} {i j : Nat}
    (hsub : ∀ ws2, domGet d2 x = .ok ws2 →
      ∃ ws, domGet d x = .ok ws ∧ ∀ w ∈ ws2, w ∈ ws)
    (hy : domGet d2 y = domGet d y)
    (h : arcCons d x y i j) : arcCons d2 x y i j := by
  intro dxq hdxq w hw
  obtain ⟨ws, hws, hmem⟩ := hsub dxq hdxq
  obtain ⟨dy, hdy, u, hu, ch, hwi, huj⟩ := h ws hws w (hmem w hw)
  exact ⟨dy, by rw [hy]; exact hdy, u, hu, ch, hwi, huj⟩

theorem reviseG_false_arcCons {c : Crossword} {d d2 : Domains} {x y : Var}
    {i j : Nat} (hov : overlapGet c x y = some (some (i, j)))
    (h : reviseG c d x y = .ok (false, d2)) : arcCons d x y i j := by
  simp only [reviseG, overlapIdx, hov] at h
  cases hdx : domGet d x with
  | error e => rw [hdx] at h; cases h
  | ok dx =>
    cases hdy : domGet d y with
    | error e => simp only [hdx, hdy] at h; cases h
    | ok dy =>
      simp only [hdx, hdy] at h
      cases hrf : reviseFilter i j dy dx with
      | error e => rw [hrf] at h; cases h
      | ok dx2 =>
        rw [hrf] at h
        dsimp only at h
        by_cases hlen : (dx2.length == dx.length) = true
        · have hdx2 : dx2 = dx :=
            (reviseFilter_sublist hrf).eq_of_length (by simpa using hlen)
          obtain ⟨hfil, hall⟩ := reviseFilter_ok hrf
          have hkeep : ∀ w ∈ dx, keepB i j dy w = true := by
            intro w hw
            exact List.filter_eq_self.mp (by rw [← hfil, hdx2]) w hw
          intro dxq hdxq w hw
          rw [hdx] at hdxq
          injection hdxq with hq
          subst hq
          obtain ⟨b, hb⟩ := hall w hw
          have hbtrue : b = true := by
            have := hkeep w hw
            simp only [keepB, hb] at this
            cases b
            · cases this
            · rfl
          subst hbtrue
          have hsup : hasSupport i j w dy = true := (existsMatch_ok_eq hb).symm
          obtain ⟨u, hu, ch, hwi, huj⟩ := hasSupport_iff.mp hsup
          exact ⟨dy, hdy, u, hu, ch, hwi, huj⟩
        · rw [if_neg hlen] at h
          cases h

theorem reviseG_true_arcCons {c : Crossword} {d d2 : Domains} {x y : Var}
    {i j : Nat} (hov : overlapGet c x y = some (some (i, j)))
    (hxy : x ≠ y)
    (h : reviseG c d x y = .ok (true, d2)) : arcCons d2 x y i j := by
  obtain ⟨i2, j2, dx, dy, dx2, hov2, hdx, hdy, hrf, hlt, hd2⟩ := reviseG_ok_true h
  rw [hov] at hov2
  injection hov2 with hov3
  injection hov3 with hov4
  injection hov4 with hi hj
  subst hi
  subst hj
  obtain ⟨hfil, hall⟩ := reviseFilter_ok hrf
  intro dxq hdxq w hw
  rw [hd2, domGet_domSet_self] at hdxq
  injection hdxq with hq
  subst hq
  rw [hfil] at hw
  have hkeep : keepB i j dy w = true := (List.mem_filter.mp hw).2
  obtain ⟨b, hb⟩ := hall w (List.mem_of_mem_filter hw)
  have hbtrue : b = true := by
    simp only [keepB, hb] at hkeep
    cases b
    · cases hkeep
    · rfl
  subst hbtrue
  have hsup : hasSupport i j w dy = true := (existsMatch_ok_eq hb).symm
  obtain ⟨u, hu, ch, hwi, huj⟩ := hasSupport_iff.mp hsup
  refine ⟨dy, ?_, u, hu, ch, hwi, huj⟩
  rw [hd2, domGet_domSet_other (Ne.symm hxy)]
  exact hdy

theorem reviseG_true_preserve_rev {c : Crossword} {d d2 : Domains} {x y : Var}
    {i j : Nat} (hov : overlapGet c x y = some (some (i, j)))
    (hxy : x ≠ y)
    (h : reviseG c d x y = .ok (true, d2))
    (hold : arcCons d y x j i) : arcCons d2 y x j i := by
  obtain ⟨i2, j2, dx, dy, dx2, hov2, hdx, hdy, hrf, hlt, hd2⟩ := reviseG_ok_true h
  rw [hov] at hov2
  injection hov2 with hov3
  injection hov3 with hov4
  injection hov4 with hi hj
  subst hi
  subst hj
  obtain ⟨hfil, hall⟩ := reviseFilter_ok hrf
  intro dyq hdyq w hw
  rw [hd2, domGet_domSet_other (Ne.symm hxy)] at hdyq
  rw [hdy] at hdyq
  injection hdyq with hq
  subst hq
  obtain ⟨dxq, hdxq, u, hu, ch, hwj, hui⟩ := hold dy hdy w hw
  rw [hdx] at hdxq
  injection hdxq with hq2
  subst hq2
  have hsup : hasSupport i j u dy = true :=
    hasSupport_iff.mpr ⟨w, hw, ch, hui, hwj⟩
  obtain ⟨b, hb⟩ := hall u hu
  have hbtrue : b = true := by rw [existsMatch_ok_eq hb, hsup]
  subst hbtrue
  have hmem2 : u ∈ dx2 := by
    rw [hfil]
    refine List.mem_filter.mpr ⟨hu, ?_⟩
    simp [keepB, hb]
  refine ⟨dx2, ?_, u, hmem2, ch, hwj, hui⟩
  rw [hd2, domGet_domSet_self]

theorem ac3Go_sound {c : Crossword} (hwf : wfB c = true) :
    ∀ {n : Nat} {d : Domains} {q : List (Var × Var)} {d2 : Domains},
      ac3Inv c d q → ac3Go c n d q = .ok (true, d2) →
      ∀ x y i j, x ∈ c.vars → y ∈ c.vars →
        overlapGet c x y = some (some (i, j)) → arcCons d2 x y i j := by
  intro n
  induction n with
  | zero => intro d q d2 _ h; cases h
  | succ n ih =>
    intro d q d2 hinv hrun x y i j hx hy hov
    cases q with
    | nil =>
      simp only [ac3Go] at hrun
      have h2 : ((true : Bool), d) = (true, d2) := by simpa using hrun
      injection h2 with h3 h4
      subst h4
      rcases hinv x y i j hx hy hov with hq | hc
      · cases hq
      · exact hc
    | cons p rest =>
      obtain ⟨a, b⟩ := p
      cases hrev : reviseG c d a b with
      | error e => rw [ac3Go_cons_err hrev] at hrun; cases hrun
      | ok pr =>
        obtain ⟨revised, dmid⟩ := pr
        cases revised with
        | false =>
          have hd : dmid = d := reviseG_ok_false hrev
          subst hd
          rw [ac3Go_cons_false hrev] at hrun
          refine ih ?_ hrun x y i j hx hy hov
          intro x2 y2 i2 j2 hx2 hy2 hov2
          rcases hinv x2 y2 i2 j2 hx2 hy2 hov2 with hq | hc
          · rcases List.mem_cons.mp hq with heq | hq2
            · injection heq with h1 h2
              subst h1
              subst h2
              exact Or.inr (reviseG_false_arcCons hov2 hrev)
            · exact Or.inl hq2
          · exact Or.inr hc
        | true =>
          obtain ⟨ia, ja, dxa, dya, dx2, hovab, hdxa, hdya, hrf, hlt, hdmid⟩ :=
            reviseG_ok_true hrev
          have hda : domGet dmid a = .ok dx2 := by
            rw [hdmid, domGet_domSet_self]
          rw [ac3Go_cons_true hrev hda] at hrun
          by_cases hz : (dx2.length == 0) = true
          · rw [if_pos hz] at hrun
            cases hrun
          · rw [if_neg hz] at hrun
            refine ih ?_ hrun x y i j hx hy hov
            intro x2 y2 i2 j2 hx2 hy2 hov2
            by_cases hy2a : y2 = a
            · subst hy2a
              by_cases hx2b : x2 = b
              · subst hx2b
                have hwfe := wfB_entry hwf hx2 hy2 hov2
                have hba : x2 ≠ y2 := hwfe.2.2.2
                rcases hinv x2 y2 i2 j2 hx2 hy2 hov2 with hq | hc
                · rcases List.mem_cons.mp hq with heq | hq2
                  · injection heq with h1 h2
                    exact absurd h1 hba
                  · exact Or.inl (List.mem_append_left _ hq2)
                · right
                  have hmir : overlapGet c y2 x2 = some (some (j2, i2)) := hwfe.2.2.1
                  rw [hovab] at hmir
                  injection hmir with hm1
                  injection hm1 with hm2
                  injection hm2 with hm3 hm4
                  subst hm3
                  subst hm4
                  exact reviseG_true_preserve_rev hovab
                    (fun he => hba he.symm) hrev hc
              · left
                refine List.mem_append_right _ ?_
                refine List.mem_map.mpr ⟨x2, ?_, rfl⟩
                refine List.mem_filter.mpr ⟨?_, by simpa using hx2b⟩
                have hwfe := wfB_entry hwf hx2 hy2 hov2
                refine mem_neighbors.mpr ⟨hx2, fun he => hwfe.2.2.2 he, ?_⟩
                exact ⟨(j2, i2), hwfe.2.2.1⟩
            · by_cases hx2a : x2 = a
              · subst hx2a
                by_cases hy2b : y2 = b
                · subst hy2b
                  right
                  have hab : x2 ≠ y2 := (wfB_entry hwf hx2 hy2 hov2).2.2.2
                  exact reviseG_true_arcCons hov2 hab hrev
                · rcases hinv x2 y2 i2 j2 hx2 hy2 hov2 with hq | hc
                  · rcases List.mem_cons.mp hq with heq | hq2
                    · injection heq with h1 h2
                      exact absurd h2 hy2b
                    · exact Or.inl (List.mem_append_left _ hq2)
                  · right
                    refine arcCons_mono ?_ ?_ hc
                    · intro ws2 hws2
                      rw [hda] at hws2
                      injection hws2 with hq3
                      subst hq3
                      refine ⟨dxa, hdxa, ?_⟩
                      intro w hw
                      exact (reviseFilter_sublist hrf).mem hw
                    · rw [hdmid, domGet_domSet_other ?_]
                      intro he
                      exact hy2a he
              · rcases hinv x2 y2 i2 j2 hx2 hy2 hov2 with hq | hc
                · rcases List.mem_cons.mp hq with heq | hq2
                  · injection heq with h1 h2
                    exact absurd h1 hx2a
                  · exact Or.inl (List.mem_append_left _ hq2)
                · right
                  refine arcCons_mono ?_ ?_ hc
                  · intro ws2 hws2
                    rw [hdmid, domGet_domSet_other hx2a] at hws2
                    exact ⟨ws2, hws2, fun w hw => hw⟩
                  · rw [hdmid, domGet_domSet_other hy2a]

/-- C3: if `ac3` with the default full arc set succeeds, then for every
ordered pair of slots whose overlap entry is a non-`none` index pair
`(i, j)`, every word remaining in the first slot's domain has at least one
word in the second slot's domain with matching characters at the overlap. -/
theorem C3_ac3_soundness {c : Crossword} {d d2 : Domains} {x y : Var}
    {i j : Nat} (hwf : wfB c = true)
    (hrun : ac3 c d none = .ok (true, d2))
    (hx : x ∈ c.vars) (hy : y ∈ c.vars)
    (hov : overlapGet c x y = some (some (i, j))) :
    ∀ dx, domGet d2 x = .ok dx → ∀ w ∈ dx,
      ∃ dy, domGet d2 y = .ok dy ∧
        ∃ u ∈ dy, ∃ ch, w[i]? = some ch ∧ u[j]? = some ch := by
  have hinv : ac3Inv c d (ac3Queue c none) := by
    intro x2 y2 i2 j2 hx2 hy2 hov2
    left
    have hwfe := wfB_entry hwf hx2 hy2 hov2
    exact mem_fullArcs.mpr ⟨hx2,
      mem_neighbors.mpr ⟨hy2, fun he => hwfe.2.2.2 he.symm, ⟨(i2, j2), hov2⟩⟩⟩
  exact ac3Go_sound hwf hinv hrun x y i j hx hy hov

/-- Witness for C3 at the crossing pair of `cxPair`, instantiated at the
word cat-fragment `['c', 'a']` of the across slot's domain. -/
theorem C3_witness :
    ∃ dy, domGet (initDomains cxPair) vd = .ok dy ∧
      ∃ u ∈ dy, ∃ ch, (['c', 'a'] : Word)[0]? = some ch ∧ u[0]? = some ch :=
  @C3_ac3_soundness cxPair (initDomains cxPair) (initDomains cxPair)
    va vd 0 0 rfl rfl (by decide) (by decide) rfl
    [['c', 'a'], ['a', 't'], ['c', 't']] rfl ['c', 'a'] (by decide)

theorem dkeys_domGet {c : Crossword} {d : Domains} {v : Var}
    (hk : dkeys c d) (hv : v ∈ c.vars) : ∃ ws, domGet d v = .ok ws :=
  mem_keys_domGet (by rw [hk]; exact hv)

theorem dkeys_domSet {c : Crossword} {d : Domains} {v : Var} {ws : List Word}
    (hk : dkeys c d) (hv : v ∈ c.vars) : dkeys c (domSet d v ws) := by
  unfold dkeys
  rw [keys_domSet ws (by rw [hk]; exact hv)]
  exact hk

theorem dlens_domGet {d : Domains} {v : Var} {ws : List Word}
    (hl : dlens d) (h : domGet d v = .ok ws) : ∀ w ∈ ws, w.length = v.length :=
  fun w hw => hl (v, ws) (domGet_ok_mem h) w hw

theorem dlens_domSet {d : Domains} {v : Var} {ws : List Word}
    (hl : dlens d) (hws : ∀ w ∈ ws, w.length = v.length) :
    dlens (domSet d v ws) := by
  induction d with
  | nil =>
    intro p hp w hw
    simp only [domSet, List.mem_singleton] at hp
    subst hp
    exact hws w hw
  | cons q rest ih =>
    by_cases hq : q.1 = v
    · intro p hp w hw
      rw [domSet_cons_eq hq] at hp
      rcases List.mem_cons.mp hp with rfl | hp
      · exact hws w hw
      · exact hl p (List.mem_cons_of_mem _ hp) w hw
    · intro p hp w hw
      rw [domSet_cons_ne hq] at hp
      rcases List.mem_cons.mp hp with rfl | hp
      · exact hl p (List.mem_cons_self _ _) w hw
      · exact ih (fun r hr => hl r (List.mem_cons_of_mem _ hr)) p hp w hw

theorem reviseG_DInv {c : Crossword} {d d2 : Domains} {x y : Var} {r : Bool}
    (hd : DInv c d) (h : reviseG c d x y = .ok (r, d2)) : DInv c d2 := by
  obtain ⟨hk, hl, hs⟩ := hd
  cases r with
  | false => rw [reviseG_ok_false h]; exact ⟨hk, hl, hs⟩
  | true =>
    obtain ⟨i, j, dx, dy, dx2, _, hdx, _, hrf, _, hd2⟩ := reviseG_ok_true h
    subst hd2
    have hxv : x ∈ c.vars := by
      rw [← hk]
      exact List.mem_map.mpr ⟨(x, dx), domGet_ok_mem hdx, rfl⟩
    refine ⟨dkeys_domSet hk hxv, ?_, ?_⟩
    · refine dlens_domSet hl ?_
      intro w hw
      exact dlens_domGet hl hdx w ((reviseFilter_sublist hrf).mem hw)
    · refine subWords_domSet hs ?_
      intro w hw
      exact hs (x, dx) (domGet_ok_mem hdx) w ((reviseFilter_sublist hrf).mem hw)

theorem existsMatch_ok_exists {i j : Nat} {xw : Word} {dy : List Word}
    (hi : i < xw.length) (hj : ∀ u ∈ dy, j < u.length) :
    ∃ b, existsMatch i j xw dy = .ok b := by
  induction dy with
  | nil => exact ⟨false, rfl⟩
  | cons u rest ih =>
    obtain ⟨ca, hca⟩ := charAt_of_lt hi
    obtain ⟨cb, hcb⟩ := charAt_of_lt (hj u (List.mem_cons_self _ _))
    obtain ⟨b, hb⟩ := ih (fun u2 hu2 => hj u2 (List.mem_cons_of_mem _ hu2))
    by_cases hab : (ca == cb) = true
    · exact ⟨true, by simp only [existsMatch, hca, hcb, if_pos hab]⟩
    · exact ⟨b, by simp only [existsMatch, hca, hcb, if_neg hab]; exact hb⟩

theorem reviseFilter_ok_exists {i j : Nat} {dy dx : List Word}
    (hi : ∀ w ∈ dx, i < w.length) (hj : ∀ u ∈ dy, j < u.length) :
    ∃ dx2, reviseFilter i j dy dx = .ok dx2 := by
  induction dx with
  | nil => exact ⟨[], rfl⟩
  | cons xw rest ih =>
    obtain ⟨b, hb⟩ := existsMatch_ok_exists
      (hi xw (List.mem_cons_self _ _)) hj
    obtain ⟨tail, htail⟩ := ih (fun w hw => hi w (List.mem_cons_of_mem _ hw))
    exact ⟨if b then xw :: tail else tail,
      by simp only [reviseFilter, hb, htail]⟩

theorem reviseG_ok_exists {c : Crossword} {d : Domains} {x y : Var}
    {e : Option (Nat × Nat)} (hwf : wfB c = true) (hd : DInv c d)
    (hx : x ∈ c.vars) (hy : y ∈ c.vars)
    (he : overlapGet c x y = some e) :
    ∃ r d2, reviseG c d x y = .ok (r, d2) := by
  obtain ⟨hk, hl, hs⟩ := hd
  cases e with
  | none =>
    refine ⟨false, d, ?_⟩
    simp [reviseG, overlapIdx, he]
  | some pr =>
    obtain ⟨i, j⟩ := pr
    obtain ⟨hi, hj, _, _⟩ := wfB_entry hwf hx hy he
    obtain ⟨dx, hdx⟩ := dkeys_domGet hk hx
    obtain ⟨dy, hdy⟩ := dkeys_domGet hk hy
    obtain ⟨dx2, hrf⟩ := reviseFilter_ok_exists
      (fun w hw => by rw [dlens_domGet hl hdx w hw]; exact hi)
      (fun u hu => by rw [dlens_domGet hl hdy u hu]; exact hj)
    by_cases hlen : (dx2.length == dx.length) = true
    · refine ⟨false, d, ?_⟩
      simp only [reviseG, overlapIdx, he, hdx, hdy, hrf, if_pos hlen]
    · refine ⟨true, domSet d x dx2, ?_⟩
      simp only [reviseG, overlapIdx, he, hdx, hdy, hrf, if_neg hlen]

theorem ac3Go_DInv {c : Crossword} :
    ∀ {n : Nat} {d : Domains} {q : List (Var × Var)} {b : Bool} {d2 : Domains},
      DInv c d → ac3Go c n d q = .ok (b, d2) → DInv c d2 := by
  intro n
  induction n with
  | zero => intro d q b d2 _ h; cases h
  | succ n ih =>
    intro d q b d2 hd h
    cases q with
    | nil =>
      simp only [ac3Go] at h
      have h2 : ((true : Bool), d) = (b, d2) := by simpa using h
      injection h2 with h3 h4
      subst h4
      exact hd
    | cons p rest =>
      obtain ⟨a, bb⟩ := p
      cases hrev : reviseG c d a bb with
      | error e => rw [ac3Go_cons_err hrev] at h; cases h
      | ok pr =>
        obtain ⟨revised, dmid⟩ := pr
        have hdmid : DInv c dmid := reviseG_DInv hd hrev
        cases revised with
        | false =>
          rw [ac3Go_cons_false hrev] at h
          exact ih hdmid h
        | true =>
          cases hdom : domGet dmid a with
          | error e => rw [ac3Go_cons_true_err hrev hdom] at h; cases h
          | ok dxa =>
            rw [ac3Go_cons_true hrev hdom] at h
            by_cases hz : (dxa.length == 0) = true
            · rw [if_pos hz] at h
              have h2 : ((false : Bool), dmid) = (b, d2) := by simpa using h
              injection h2 with h3 h4
              subst h4
              exact hdmid
            · rw [if_neg hz] at h
              exact ih hdmid h

theorem ac3Go_no_err {c : Crossword} (hwf : wfB c = true) :
    ∀ {n : Nat} {d : Domains} {q : List (Var × Var)} {e : Err},
      DInv c d → arcsWF c q → ac3Go c n d q = .error e → e = .outOfFuel := by
  intro n
  induction n with
  | zero =>
    intro d q e _ _ h
    injection h with h2
    exact h2.symm
  | succ n ih =>
    intro d q e hd hq h
    cases q with
    | nil => cases h
    | cons p rest =>
      obtain ⟨a, b⟩ := p
      obtain ⟨ha, hb, hent⟩ := hq (a, b) (List.mem_cons_self _ _)
      obtain ⟨ent, hent2⟩ := Option.isSome_iff_exists.mp hent
      obtain ⟨r, dmid, hrev⟩ := reviseG_ok_exists hwf hd ha hb hent2
      have hdmid : DInv c dmid := reviseG_DInv hd hrev
      have hqrest : arcsWF c rest := fun p hp => hq p (List.mem_cons_of_mem _ hp)
      cases r with
      | false =>
        rw [ac3Go_cons_false hrev] at h
        exact ih hdmid hqrest h
      | true =>
        obtain ⟨dxa, hdom⟩ := dkeys_domGet hdmid.1 ha
        rw [ac3Go_cons_true hrev hdom] at h
        by_cases hz : (dxa.length == 0) = true
        · rw [if_pos hz] at h
          cases h
        · rw [if_neg hz] at h
          refine ih hdmid ?_ h
          intro p hp
          rcases List.mem_append.mp hp with hp | hp
          · exact hqrest p hp
          · obtain ⟨z, hz2, rfl⟩ := List.mem_map.mp hp
            have hz3 := List.mem_of_mem_filter hz2
            obtain ⟨hzv, hza, ez, hez⟩ := mem_neighbors.mp hz3
            obtain ⟨iz, jz⟩ := ez
            refine ⟨hzv, ha, ?_⟩
            rw [(wfB_entry hwf ha hzv hez).2.2.1]
            rfl

theorem ac3_ok_exists {c : Crossword} {d : Domains}
    {arcs : Option (List (Var × Var))} (hwf : wfB c = true) (hd : DInv c d)
    (hq : arcsWF c (ac3Queue c arcs)) :
    ∃ b d2, ac3 c d arcs = .ok (b, d2) ∧ DInv c d2 := by
  cases h : ac3 c d arcs with
  | error e =>
    have he : e = .outOfFuel := ac3Go_no_err hwf hd hq h
    subst he
    exact absurd h (ac3Go_bound _ _ _ (by simp [ac3Bound]))
  | ok pr =>
    obtain ⟨b, d2⟩ := pr
    exact ⟨b, d2, rfl, ac3Go_DInv hd h⟩

theorem arcsWF_full {c : Crossword} : arcsWF c (fullArcs c) := by
  intro p hp
  obtain ⟨x, y⟩ := p
  obtain ⟨hx, hy⟩ := mem_fullArcs.mp hp
  obtain ⟨hyv, _, e, he⟩ := mem_neighbors.mp hy
  exact ⟨hx, hyv, by rw [he]; rfl⟩

theorem arcsWF_seed {c : Crossword} {var : Var} (hwf : wfB c = true)
    (hv : var ∈ c.vars) :
    arcsWF c ((c.neighbors var).map (fun n => (n, var))) := by
  intro p hp
  obtain ⟨z, hz, rfl⟩ := List.mem_map.mp hp
  obtain ⟨hzv, _, e, he⟩ := mem_neighbors.mp hz
  obtain ⟨iz, jz⟩ := e
  refine ⟨hzv, hv, ?_⟩
  rw [(wfB_entry hwf hv hzv he).2.2.1]
  rfl

theorem consistentNbrs_ok_exists {c : Crossword} {a : Assignment} {var : Var}
    {word : Word} (hwf : wfB c = true) (hainv : ainv c a)
    (hvar : var ∈ c.vars) (hword : word.length = var.length) :
    ∀ {nbrs : List Var}, (∀ n ∈ nbrs, n ∈ c.neighbors var) →
      ∃ b, consistentNbrs c a var word nbrs = .ok b := by
  intro nbrs
  induction nbrs with
  | nil => intro _; exact ⟨true, rfl⟩
  | cons m rest ih =>
    intro hsub
    obtain ⟨hmv, _, em, hem⟩ := mem_neighbors.mp (hsub m (List.mem_cons_self _ _))
    obtain ⟨i, j⟩ := em
    obtain ⟨hi, hj, _, _⟩ := wfB_entry hwf hvar hmv hem
    obtain ⟨brest, hbrest⟩ := ih (fun n hn => hsub n (List.mem_cons_of_mem _ hn))
    by_cases hk : hasKey a m = true
    · obtain ⟨ca, hca⟩ := charAt_of_lt (by rw [hword]; exact hi)
      obtain ⟨u, hu⟩ := hasKey_assignGet hk
      have hulen : u.length = m.length := (hainv (m, u) (assignGet_ok_mem hu)).2
      obtain ⟨cb, hcb⟩ := charAt_of_lt (by rw [hulen]; exact hj)
      have hoidx : overlapIdx c var m = .ok (some (i, j)) := by
        simp [overlapIdx, hem]
      by_cases hcc : (ca == cb) = true
      · refine ⟨brest, ?_⟩
        simp only [consistentNbrs, if_pos hk, hoidx, hca, hu, hcb, if_pos hcc]
        exact hbrest
      · refine ⟨false, ?_⟩
        simp only [consistentNbrs, if_pos hk, hoidx, hca, hu, hcb, if_neg hcc]
    · refine ⟨brest, ?_⟩
      simp only [consistentNbrs, if_neg hk]
      exact hbrest

theorem consistentItems_ok_exists {c : Crossword} {a : Assignment}
    (hwf : wfB c = true) (hainv : ainv c a) :
    ∀ {l : List (Var × Word)}, (∀ p ∈ l, p.1 ∈ c.vars) →
      ∃ b, consistentItems c a l = .ok b := by
  intro l
  induction l with
  | nil => intro _; exact ⟨true, rfl⟩
  | cons q rest ih =>
    intro hsub
    obtain ⟨var, word⟩ := q
    obtain ⟨brest, hbrest⟩ := ih (fun p hp => hsub p (List.mem_cons_of_mem _ hp))
    by_cases hlen : (word.length == var.length) = true
    · obtain ⟨bn, hbn⟩ := consistentNbrs_ok_exists hwf hainv
        (hsub (var, word) (List.mem_cons_self _ _)) (by simpa using hlen)
        (fun n hn => hn)
      cases bn with
      | true =>
        refine ⟨brest, ?_⟩
        simp only [consistentItems, if_pos hlen, hbn]
        exact hbrest
      | false =>
        refine ⟨false, ?_⟩
        simp only [consistentItems, if_pos hlen, hbn]
    · refine ⟨false, ?_⟩
      simp only [consistentItems, if_neg hlen]

theorem consistent_ok_exists {c : Crossword} {a : Assignment}
    (hwf : wfB c = true) (hainv : ainv c a) :
    ∃ b, consistent c a = .ok b := by
  by_cases hd : distinctValues a = true
  · obtain ⟨b, hb⟩ := consistentItems_ok_exists hwf hainv
      (fun p hp => (hainv p hp).1)
    refine ⟨b, ?_⟩
    simp only [consistent, if_pos hd]
    exact hb
  · exact ⟨false, by simp only [consistent, if_neg hd]⟩

theorem countConflicts_ok_exists {i j : Nat} {word : Word} {dn : List Word}
    (hi : i < word.length) (hj : ∀ nw ∈ dn, j < nw.length) :
    ∃ k, countConflicts i j word dn = .ok k := by
  induction dn with
  | nil => exact ⟨0, rfl⟩
  | cons nw rest ih =>
    obtain ⟨ca, hca⟩ := charAt_of_lt hi
    obtain ⟨cb, hcb⟩ := charAt_of_lt (hj nw (List.mem_cons_self _ _))
    obtain ⟨k, hk⟩ := ih (fun u hu => hj u (List.mem_cons_of_mem _ hu))
    exact ⟨(if ca == cb then 0 else 1) + k,
      by simp only [countConflicts, hca, hcb, hk]⟩

theorem conflictsNbrs_ok_exists {c : Crossword} {d : Domains} {a : Assignment}
    {var : Var} {word : Word} (hwf : wfB c = true) (hd : DInv c d)
    (hvar : var ∈ c.vars) (hword : word.length = var.length) :
    ∀ {nbrs : List Var}, (∀ n ∈ nbrs, n ∈ c.neighbors var) →
      ∃ k, conflictsNbrs c d a var word nbrs = .ok k := by
  intro nbrs
  induction nbrs with
  | nil => intro _; exact ⟨0, rfl⟩
  | cons m rest ih =>
    intro hsub
    obtain ⟨krest, hkrest⟩ := ih (fun n hn => hsub n (List.mem_cons_of_mem _ hn))
    by_cases hk : hasKey a m = true
    · refine ⟨krest, ?_⟩
      simp only [conflictsNbrs, if_pos hk]
      exact hkrest
    · obtain ⟨hmv, _, em, hem⟩ :=
        mem_neighbors.mp (hsub m (List.mem_cons_self _ _))
      obtain ⟨i, j⟩ := em
      obtain ⟨hi, hj, _, _⟩ := wfB_entry hwf hvar hmv hem
      have hoidx : overlapIdx c var m = .ok (some (i, j)) := by
        simp [overlapIdx, hem]
      obtain ⟨dn, hdn⟩ := dkeys_domGet hd.1 hmv
      obtain ⟨k, hcc⟩ := countConflicts_ok_exists
        (by rw [hword]; exact hi)
        (fun nw hnw => by rw [dlens_domGet hd.2.1 hdn nw hnw]; exact hj)
      refine ⟨k + krest, ?_⟩
      simp only [conflictsNbrs, if_neg hk, hoidx, hdn, hcc, hkrest]

theorem decorate_ok_exists {c : Crossword} {d : Domains} {a : Assignment}
    {var : Var} (hwf : wfB c = true) (hd : DInv c d) (hvar : var ∈ c.vars) :
    ∀ {l : List Word}, (∀ w ∈ l, w.length = var.length) →
      ∃ pairs, decorate c d a var l = .ok pairs := by
  intro l
  induction l with
  | nil => intro _; exact ⟨[], rfl⟩
  | cons w rest ih =>
    intro hlen
    obtain ⟨k, hk⟩ := conflictsNbrs_ok_exists (a := a) hwf hd hvar
      (hlen w (List.mem_cons_self _ _)) (fun n hn => hn)
    obtain ⟨tail, htail⟩ := ih (fun w2 hw2 => hlen w2 (List.mem_cons_of_mem _ hw2))
    exact ⟨(w, k) :: tail, by simp only [decorate, conflictsKey, hk, htail]⟩

theorem order_ok_exists {c : Crossword} {d : Domains} {a : Assignment}
    {var : Var} (hwf : wfB c = true) (hd : DInv c d) (hvar : var ∈ c.vars) :
    ∃ vals, order_domain_values c d a var = .ok vals := by
  obtain ⟨dvar, hdvar⟩ := dkeys_domGet hd.1 hvar
  obtain ⟨pairs, hpairs⟩ := decorate_ok_exists (a := a) hwf hd hvar
    (fun w hw => dlens_domGet hd.2.1 hdvar w hw)
  exact ⟨(sortPairs pairs).map Prod.fst,
    by simp only [order_domain_values, hdvar, hpairs]⟩

theorem foldlMin_mem : ∀ (xs : List Nat) (x : Nat), xs.foldl Nat.min x ∈ x :: xs := by
  intro xs
  induction xs with
  | nil => intro x; exact List.mem_cons_self _ _
  | cons y ys ih =>
    intro x
    have := ih (Nat.min x y)
    rcases List.mem_cons.mp this with he | he
    · have hmin : Nat.min x y = x ∨ Nat.min x y = y := by
        by_cases hle : x ≤ y
        · exact Or.inl (Nat.min_eq_left hle)
        · exact Or.inr (Nat.min_eq_right (Nat.le_of_not_le hle))
      rcases hmin with hm | hm
      · exact List.mem_cons.mpr (Or.inl (by rw [List.foldl_cons, he, hm]))
      · refine List.mem_cons.mpr (Or.inr ?_)
        rw [List.foldl_cons, he, hm]
        exact List.mem_cons_self _ _
    · exact List.mem_cons.mpr (Or.inr (List.mem_cons_of_mem _ (by rw [List.foldl_cons]; exact he)))

theorem minNat_mem {l : List Nat} {m : Nat} (h : minNat l = some m) : m ∈ l := by
  cases l with
  | nil => cases h
  | cons x xs =>
    simp only [minNat] at h
    injection h with h2
    rw [← h2]
    exact foldlMin_mem xs x

theorem domSizes_ok_exists {c : Crossword} {d : Domains} (hk : dkeys c d) :
    ∀ {us : List Var}, (∀ v ∈ us, v ∈ c.vars) →
      ∃ sizes, domSizes d us = .ok sizes ∧ sizes.length = us.length := by
  intro us
  induction us with
  | nil => intro _; exact ⟨[], rfl, rfl⟩
  | cons v rest ih =>
    intro hsub
    obtain ⟨ws, hws⟩ := dkeys_domGet hk (hsub v (List.mem_cons_self _ _))
    obtain ⟨tail, htail, hlen⟩ := ih (fun u hu => hsub u (List.mem_cons_of_mem _ hu))
    exact ⟨ws.length :: tail, by simp only [domSizes, hws, htail],
      by simp [hlen]⟩

theorem filterBySize_ok_exists {c : Crossword} {d : Domains} {m : Nat}
    (hk : dkeys c d) :
    ∀ {us : List Var}, (∀ v ∈ us, v ∈ c.vars) →
      ∃ mrv, filterBySize d m us = .ok mrv := by
  intro us
  induction us with
  | nil => intro _; exact ⟨[], rfl⟩
  | cons v rest ih =>
    intro hsub
    obtain ⟨ws, hws⟩ := dkeys_domGet hk (hsub v (List.mem_cons_self _ _))
    obtain ⟨tail, htail⟩ := ih (fun u hu => hsub u (List.mem_cons_of_mem _ hu))
    exact ⟨if ws.length == m then v :: tail else tail,
      by simp only [filterBySize, hws, htail]⟩

theorem filterBySize_nonempty {d : Domains} {m : Nat} :
    ∀ {us : List Var} {sizes : List Nat} {mrv : List Var},
      domSizes d us = .ok sizes → m ∈ sizes →
      filterBySize d m us = .ok mrv → mrv ≠ [] := by
  intro us
  induction us with
  | nil =>
    intro sizes mrv hsz hm _
    cases hsz
    cases hm
  | cons v rest ih =>
    intro sizes mrv hsz hm hfil
    simp only [domSizes] at hsz
    cases hws : domGet d v with
    | error e => rw [hws] at hsz; cases hsz
    | ok ws =>
      simp only [hws] at hsz
      cases htail : domSizes d rest with
      | error e => rw [htail] at hsz; cases hsz
      | ok tail =>
        rw [htail] at hsz
        cases hsz
        simp only [filterBySize, hws] at hfil
        cases hftail : filterBySize d m rest with
        | error e => rw [hftail] at hfil; cases hfil
        | ok ftail =>
          rw [hftail] at hfil
          cases hfil
          rcases List.mem_cons.mp hm with rfl | hm2
          · rw [if_pos (by simp)]
            simp
          · have hne := ih htail hm2 hftail
            by_cases hc : (ws.length == m) = true
            · rw [if_pos hc]; simp
            · rw [if_neg hc]; exact hne

theorem select_ok_exists {c : Crossword} {d : Domains} {a : Assignment}
    (hk : dkeys c d) (hne : ∃ v ∈ c.vars, hasKey a v = false) :
    ∃ var, select_unassigned_variable c d a = .ok var := by
  obtain ⟨v0, hv0, hkey0⟩ := hne
  have hmem0 : v0 ∈ c.vars.filter (fun v => !(hasKey a v)) :=
    List.mem_filter.mpr ⟨hv0, by simp [hkey0]⟩
  have hsubv : ∀ v ∈ c.vars.filter (fun v => !(hasKey a v)), v ∈ c.vars :=
    fun v hv => List.mem_of_mem_filter hv
  obtain ⟨sizes, hsz, hlen⟩ := domSizes_ok_exists hk hsubv
  have hszne : sizes ≠ [] := by
    intro hcon
    rw [hcon] at hlen
    exact (List.ne_nil_of_mem hmem0) (List.length_eq_zero.mp hlen.symm)
  obtain ⟨s0, srest, rfl⟩ := List.exists_cons_of_ne_nil hszne
  obtain ⟨mrv, hfil⟩ := filterBySize_ok_exists (m := srest.foldl Nat.min s0) hk hsubv
  have hmrvne : mrv ≠ [] :=
    filterBySize_nonempty hsz (minNat_mem (l := s0 :: srest) rfl) hfil
  obtain ⟨v1, vrest, rfl⟩ := List.exists_cons_of_ne_nil hmrvne
  by_cases hone : (vrest.length == 0) = true
  · refine ⟨v1, ?_⟩
    simp only [select_unassigned_variable, hsz, minNat, hfil, if_pos hone]
  · refine ⟨maxByDegreeFirst c v1 vrest, ?_⟩
    simp only [select_unassigned_variable, hsz, minNat, hfil, if_neg hone]

theorem incomplete_unassigned {c : Crossword} {a : Assignment}
    (hcomp : assignment_complete c a = false)
    (hkeys : ∀ p ∈ a, p.1 ∈ c.vars) :
    ∃ v ∈ c.vars, hasKey a v = false := by
  simp only [assignment_complete, setEqVars] at hcomp
  have hall : a.all (fun _ => true) = true := List.all_eq_true.mpr (fun _ _ => rfl)
  rw [hall, Bool.and_true] at hcomp
  have h1 : (a.map Prod.fst).all (fun k => c.vars.contains k) = true := by
    refine List.all_eq_true.mpr ?_
    intro k hk
    obtain ⟨p, hp, rfl⟩ := List.mem_map.mp hk
    simpa [List.contains] using List.elem_eq_true_of_mem (hkeys p hp)
  rw [h1, Bool.true_and] at hcomp
  have h2 := (Bool.not_eq_true _).mpr hcomp
  rw [List.all_eq_true] at h2
  push_neg at h2
  obtain ⟨v, hv, hvc⟩ := h2
  refine ⟨v, hv, ?_⟩
  cases hk : hasKey a v with
  | false => rfl
  | true =>
    exfalso
    apply hvc
    rw [hasKey_iff_mem_keys] at hk
    simpa [List.contains] using List.elem_eq_true_of_mem hk

theorem hasKey_append {a : Assignment} {var v : Var} {value : Word} :
    hasKey (a ++ [(var, value)]) v = (hasKey a v || var == v) := by
  simp [hasKey, List.any_append]

theorem ainv_append {c : Crossword} {a : Assignment} {var : Var} {value : Word}
    (ha : ainv c a) (hvar : var ∈ c.vars) (hlen : value.length = var.length) :
    ainv c (a ++ [(var, value)]) := by
  intro p hp
  rcases List.mem_append.mp hp with hp | hp
  · exact ha p hp
  · rcases List.mem_singleton.mp hp with rfl
    exact ⟨hvar, hlen⟩

theorem filter_length_mono {p1 p2 : Var → Bool}
    (himp : ∀ v, p2 v = true → p1 v = true) :
    ∀ l : List Var, (l.filter p2).length ≤ (l.filter p1).length := by
  intro l
  induction l with
  | nil => exact Nat.le_refl _
  | cons u rest ih =>
    simp only [List.filter_cons]
    cases h2 : p2 u with
    | true =>
      rw [himp u h2]
      simp only [eq_self_iff_true, if_true, List.length_cons]
      omega
    | false =>
      cases h1 : p1 u with
      | true =>
        simp only [eq_self_iff_true, if_true, Bool.false_eq_true, if_false,
          List.length_cons]
        omega
      | false =>
        simp only [Bool.false_eq_true, if_false]
        exact ih

theorem filter_length_strict {p1 p2 : Var → Bool}
    (himp : ∀ v, p2 v = true → p1 v = true) {v0 : Var} :
    ∀ {l : List Var}, v0 ∈ l → p1 v0 = true → p2 v0 = false →
      (l.filter p2).length < (l.filter p1).length := by
  intro l
  induction l with
  | nil => intro h; cases h
  | cons u rest ih =>
    intro hmem hp1 hp2
    simp only [List.filter_cons]
    rcases List.mem_cons.mp hmem with rfl | hmem2
    · rw [hp1, hp2]
      simp only [eq_self_iff_true, if_true, Bool.false_eq_true, if_false,
        List.length_cons]
      have := filter_length_mono himp rest
      omega
    · cases h2 : p2 u with
      | true =>
        rw [himp u h2]
        simp only [eq_self_iff_true, if_true, List.length_cons]
        have := ih hmem2 hp1 hp2
        omega
      | false =>
        cases h1 : p1 u with
        | true =>
          simp only [eq_self_iff_true, if_true, Bool.false_eq_true, if_false,
            List.length_cons]
          have := ih hmem2 hp1 hp2
          omega
        | false =>
          simp only [Bool.false_eq_true, if_false]
          exact ih hmem2 hp1 hp2

theorem unassignedCount_append_lt {c : Crossword} {a : Assignment} {var : Var}
    {value : Word} (hvar : var ∈ c.vars) (hkey : hasKey a var = false) :
    unassignedCount c (a ++ [(var, value)]) < unassignedCount c a := by
  refine filter_length_strict ?_ hvar (by simp [hkey]) ?_
  · intro v hv
    rw [hasKey_append] at hv
    simp only [Bool.not_eq_true', Bool.or_eq_false_iff] at hv
    simp [hv.1]
  · rw [hasKey_append]
    simp [hkey]

theorem backtrackGo_ok_exists {c : Crossword} (hwf : wfB c = true) :
    ∀ {fuel : Nat} {d : Domains} {a : Assignment},
      DInv c d → ainv c a → unassignedCount c a < fuel →
      ∃ res d2, backtrackGo c fuel d a = .ok (res, d2) := by
  intro fuel
  induction fuel with
  | zero => intro d a _ _ h; exact absurd h (Nat.not_lt_zero _)
  | succ n ih =>
    intro d a hd ha hfuel
    by_cases hcomp : assignment_complete c a = true
    · exact ⟨some a, d, by simp only [backtrackGo, if_pos hcomp]⟩
    · obtain ⟨var, hsel⟩ := select_ok_exists hd.1
        (incomplete_unassigned (by simpa using hcomp) (fun p hp => (ha p hp).1))
      obtain ⟨hvarv, hvark⟩ := select_ok_unassigned hsel
      obtain ⟨vals, hord⟩ := order_ok_exists (a := a) hwf hd hvarv
      have hvals : ∀ w ∈ vals, w.length = var.length ∧ w ∈ c.words := by
        intro w hw
        obtain ⟨dvar, hdvar, hmem⟩ := order_domain_values_mem hord w hw
        exact ⟨dlens_domGet hd.2.1 hdvar w hmem,
          hd.2.2 (var, dvar) (domGet_ok_mem hdvar) w hmem⟩
      have htv : ∀ (vl : List Word), (∀ w ∈ vl, w.length = var.length ∧ w ∈ c.words) →
          ∃ res d2, tryValues c (backtrackGo c n) d a var vl = .ok (res, d2) := by
        intro vl
        induction vl with
        | nil => intro _; exact ⟨none, d, rfl⟩
        | cons value rest ihv =>
          intro hvl
          obtain ⟨hvlen, hvw⟩ := hvl value (List.mem_cons_self _ _)
          have hainv2 : ainv c (a ++ [(var, value)]) := ainv_append ha hvarv hvlen
          obtain ⟨bc, hbc⟩ := consistent_ok_exists hwf hainv2
          obtain ⟨resr, d2r, hrest⟩ := ihv (fun w hw => hvl w (List.mem_cons_of_mem _ hw))
          cases bc with
          | false =>
            refine ⟨resr, d2r, ?_⟩
            simp only [tryValues, hbc]
            exact hrest
          | true =>
            have hd1 : DInv c (domSet d var [value]) := by
              refine ⟨dkeys_domSet hd.1 hvarv, dlens_domSet hd.2.1 ?_,
                subWords_domSet hd.2.2 ?_⟩
              · intro w hw
                rcases List.mem_singleton.mp hw with rfl
                exact hvlen
              · intro w hw
                rcases List.mem_singleton.mp hw with rfl
                exact hvw
            obtain ⟨bb, dmid, hac, hdmid⟩ :=
              @ac3_ok_exists c (domSet d var [value])
                (some ((c.neighbors var).map (fun n => (n, var))))
                hwf hd1 (arcsWF_seed hwf hvarv)
            cases bb with
            | false =>
              refine ⟨resr, d2r, ?_⟩
              simp only [tryValues, hbc, hac]
              exact hrest
            | true =>
              have hcount : unassignedCount c (a ++ [(var, value)]) < n := by
                have h1 := @unassignedCount_append_lt c a var value hvarv hvark
                omega
              obtain ⟨res2, d3, hbt⟩ := ih hdmid hainv2 hcount
              cases res2 with
              | some r2 =>
                exact ⟨some r2, d3, by simp only [tryValues, hbc, hac, hbt]⟩
              | none =>
                refine ⟨resr, d2r, ?_⟩
                simp only [tryValues, hbc, hac, hbt]
                exact hrest
      obtain ⟨res, d2, htvres⟩ := htv vals hvals
      refine ⟨res, d2, ?_⟩
      simp only [backtrackGo, if_neg hcomp, hsel, hord]
      exact htvres

theorem solveG_ok_exists {c : Crossword} (hwf : wfB c = true) :
    ∃ res, solveG c = .ok res := by
  have hd1 : DInv c (enforce_node_consistency (initDomains c)) := by
    refine ⟨?_, ?_, ?_⟩
    · unfold dkeys
      have h1 : ∀ dd : Domains,
          (enforce_node_consistency dd).map Prod.fst = dd.map Prod.fst := by
        intro dd
        induction dd with
        | nil => rfl
        | cons p rest ih => simp [enforce_node_consistency, ih]
      rw [h1]
      have h2 : ∀ l : List Var,
          (l.map (fun v => (v, c.words))).map Prod.fst = l := by
        intro l
        induction l with
        | nil => rfl
        | cons v rest ih => simpa using ih
      exact h2 c.vars
    · intro p hp w hw
      simp only [enforce_node_consistency, List.mem_map] at hp
      obtain ⟨q, hq, rfl⟩ := hp
      simpa using (List.mem_filter.mp hw).2
    · intro p hp w hw
      simp only [enforce_node_consistency, initDomains, List.map_map,
        List.mem_map] at hp
      obtain ⟨v, hv, rfl⟩ := hp
      exact List.mem_of_mem_filter hw
  obtain ⟨b, d2, hac, hd2⟩ :=
    @ac3_ok_exists c (enforce_node_consistency (initDomains c)) none
      hwf hd1 arcsWF_full
  have hcount : unassignedCount c ([] : Assignment) < c.vars.length + 1 := by
    unfold unassignedCount
    have : c.vars.filter (fun v => !(hasKey ([] : Assignment) v)) = c.vars :=
      List.filter_eq_self.mpr (fun v _ => rfl)
    rw [this]
    omega
  obtain ⟨res, d3, hbt⟩ := backtrackGo_ok_exists hwf hd2
    (by intro p hp; cases hp) hcount
  exact ⟨res, by simp only [solveG, hac, hbt]⟩

theorem solveG_some_sound {c : Crossword} {a : Assignment}
    (h : solveG c = .ok (some a)) :
    assignment_complete c a = true ∧ consistent c a = .ok true ∧
      valuesFrom a c.words := by
  simp only [solveG] at h
  cases hac : ac3 c (enforce_node_consistency (initDomains c)) none with
  | error e => rw [hac] at h; cases h
  | ok pr =>
    rw [hac] at h
    obtain ⟨b, d2⟩ := pr
    dsimp only at h
    cases hbt : backtrackGo c (c.vars.length + 1) d2 [] with
    | error e => rw [hbt] at h; cases h
    | ok q =>
      rw [hbt] at h
      obtain ⟨res, d3⟩ := q
      dsimp only at h
      have hres : res = some a := by simpa using h
      subst hres
      have hd2 : subWords c d2 := by
        refine ac3_subWords ?_ hac
        intro p hp w hw
        simp only [enforce_node_consistency, initDomains, List.map_map,
          List.mem_map] at hp
        obtain ⟨v, hv, rfl⟩ := hp
        exact List.mem_of_mem_filter hw
      exact backtrackGo_sound (a := []) rfl (by intro p hp; cases hp) hd2 hbt

/-- C2: on a well-formed puzzle structure and word list admitting no
complete, consistent assignment drawn from the word list, `solve` returns
the no-solution signal `None` as an ordinary value: it raises no exception
(`KeyError`, `IndexError`, `ValueError`) and takes no other exceptional
control path. -/
theorem C2_unsat_returns_none {c : Crossword} (hwf : wfB c = true)
    (hunsat : ¬ ∃ a : Assignment, assignment_complete c a = true ∧
      consistent c a = .ok true ∧ valuesFrom a c.words) :
    solveG c = .ok none := by
  obtain ⟨res, hres⟩ := solveG_ok_exists hwf
  cases res with
  | none => exact hres
  | some a =>
    exfalso
    obtain ⟨hcomp, hcons, hvals⟩ := solveG_some_sound hres
    exact hunsat ⟨a, hcomp, hcons, hvals⟩

/-- Witness for C2: a one-slot puzzle with an empty word list, unsatisfiable
because a complete assignment would need a word from the empty list. -/
theorem C2_witness : solveG cxNoWords = .ok none := by
  refine C2_unsat_returns_none rfl ?_
  rintro ⟨a, hcomp, hcons, hvals⟩
  have hkey : hasKey a vIso = true :=
    assignment_complete_covers hcomp vIso (List.mem_cons_self _ _)
  obtain ⟨w, hw⟩ := hasKey_assignGet hkey
  exact absurd (hvals (vIso, w) (assignGet_ok_mem hw)) (by intro hc; cases hc)
